import Mathlib

/-!
Verification development for the rubric import tool
(`rubric/sheet_to_rubric_names.py` of josephlou5/codepost-rubric-import-export).

The Python module is shallowly embedded below:

* Python `dict`s (which preserve insertion order and overwrite in place)
  become association lists `Dict` with `dictInsert` / `dictGet` / `dictPop`.
* Spreadsheet cells, as delivered by `Worksheet.get_records` (a thin wrapper
  over gspread's record API), become `Cell`: a cell is either a number or a
  string, a blank cell being the empty string.  This representation is forced
  by the source itself: `get_assignment_rubric` compares cells against `''`
  (blank Category / Max / Tier cells) and calls `.lower()` on the Template
  cell, so blanks arrive as empty strings and numeric cells as numbers.
  A key that is absent from a row mapping is `Option.none`.
* Python runtime values that flow into rubric comments become `PyVal`
  (`None`, `int`, `str`); dynamic failures (`ValueError` from `int(...)`,
  `TypeError`, `KeyError`) become `Except PyErr`.
* The codePost remote state for one assignment becomes `RemState`; each API
  call the module performs is recorded as an `Op` in an operation plan and
  simultaneously applied to the state.
-/

/-! ## Python dictionaries as association lists -/

/-- Association list standing for a Python `dict`: insertion order is
the list order, and inserting an existing key overwrites in place. -/
abbrev Dict (α β : Type) := List (α × β)

/-- `d[k] = v` on a Python dict: overwrite the first binding of `k`
in place, or append a new binding at the end. -/
def dictInsert {α β : Type} [DecidableEq α] (d : Dict α β) (k : α) (v : β) :
    Dict α β :=
  match d with
  | [] => [(k, v)]
  | (k', v') :: rest =>
      if k' = k then (k, v) :: rest else (k', v') :: dictInsert rest k v

/-- `d.get(k)` / `d[k]` lookup: first binding of `k`, if any. -/
def dictGet {α β : Type} [DecidableEq α] (d : Dict α β) (k : α) : Option β :=
  match d with
  | [] => Option.none
  | (k', v') :: rest => if k' = k then some v' else dictGet rest k

/-- `d.pop(k)`'s effect on the dict: remove the first binding of `k`. -/
def dictPop {α β : Type} [DecidableEq α] (d : Dict α β) (k : α) : Dict α β :=
  match d with
  | [] => []
  | (k', v') :: rest =>
      if k' = k then rest else (k', v') :: dictPop rest k

/-- `list(d.keys())`: the keys in insertion order. -/
def dictKeys {α β : Type} (d : Dict α β) : List α := d.map Prod.fst

/-- Modify the value stored at key `k` in place (used for
`rubric[category][1].append(comment)`). -/
def dictModify {α β : Type} [DecidableEq α] (d : Dict α β) (k : α) (f : β → β) :
    Dict α β :=
  match d with
  | [] => []
  | (k', v') :: rest =>
      if k' = k then (k', f v') :: rest else (k', v') :: dictModify rest k f

/-! ## Python values and errors -/

/-- A spreadsheet cell as surfaced by the records API: a number, or a string
(blank cells are the empty string). -/
inductive Cell : Type
  | int (n : Int)
  | str (s : String)
deriving DecidableEq, Repr

/-- A Python runtime value flowing through the rubric dictionaries. -/
inductive PyVal : Type
  | none
  | int (n : Int)
  | str (s : String)
deriving DecidableEq, Repr

/-- Embed a cell value into `PyVal`. -/
def Cell.toPy : Cell → PyVal
  | .int n => .int n
  | .str s => .str s

/-- Python exceptions raised by the embedded code. -/
inductive PyErr : Type
  | valueError
  | typeError
  | keyError
deriving DecidableEq, Repr

/-- Python `str(v)` as used by `str.format`. -/
def pyStr : PyVal → String
  | .none => "None"
  | .int n => toString n
  | .str s => s

/-- Whitespace characters stripped by Python's `int(...)`. -/
def isSpaceChar (c : Char) : Bool :=
  decide (c = ' ' ∨ c = '\t' ∨ c = '\n' ∨ c = '\r')

/-- Value of a decimal digit character, if it is one. -/
def digitVal (c : Char) : Option Nat :=
  if 48 ≤ c.toNat ∧ c.toNat ≤ 57 then some (c.toNat - 48) else Option.none

/-- Decimal value of a non-empty, all-digit character list. -/
def digitsToNat (l : List Char) : Option Nat :=
  match l with
  | [] => Option.none
  | _ =>
      l.foldl
        (fun acc c => acc.bind (fun a => (digitVal c).map (fun d => a * 10 + d)))
        (some 0)

/-- Python `int(s)` on a string: an optionally signed run of decimal
digits, surrounded by optional whitespace; anything else raises
`ValueError` (modelled as `Option.none`). -/
def toIntPy (s : String) : Option Int :=
  let l := s.data.dropWhile isSpaceChar
  let l := (l.reverse.dropWhile isSpaceChar).reverse
  match l with
  | '-' :: rest => (digitsToNat rest).map (fun n => -(n : Int))
  | '+' :: rest => (digitsToNat rest).map (fun n => (n : Int))
  | _ => (digitsToNat l).map (fun n => (n : Int))

/-- Python `str.lower()` on an ASCII character. -/
def pyLowerChar (c : Char) : Char :=
  if 65 ≤ c.toNat ∧ c.toNat ≤ 90 then Char.ofNat (c.toNat + 32) else c

/-- Python `str.lower()` (ASCII fragment). -/
def pyLower (s : String) : String :=
  ⟨s.data.map pyLowerChar⟩

/-! ## The sheet parser (`get_assignment_rubric`) -/

/-- One record produced by `worksheet.get_records(head=2)`: a mapping from
the header labels of `SHEET_HEADERS` to cell values.  `Option.none` models a
header that is absent from the mapping (so that `row.get(h, default)`
returns the default). -/
structure Row : Type where
  category : Option Cell
  maxPoints : Option Cell
  name : Option Cell
  tier : Option Cell
  points : Option Cell
  caption : Option Cell
  explanation : Option Cell
  instructions : Option Cell
  template : Option Cell
deriving DecidableEq, Repr

/-- A parsed rubric comment: the keyword dictionary passed to
`codepost.rubric_comment.create` / `.update`
(`name`, `text`, `pointDelta`, `explanation`, `instructionText`,
`templateTextOn`). -/
structure CommentInfo : Type where
  name : PyVal
  text : PyVal
  pointDelta : PyVal
  explanation : PyVal
  instructionText : PyVal
  templateTextOn : Bool
deriving DecidableEq, Repr

/-- A parsed rubric for one assignment:
`{ category: (max_points, [comments]) }`, a Python dict in insertion
order.  Category keys are the raw (non-blank) cell values. -/
abbrev Rubric := Dict PyVal (Option Int × List CommentInfo)

/-- `max_points` handling of `get_assignment_rubric`:
`if max_points == '': None else: -1 * int(max_points)`.
A blank cell gives `None`; `int` of a non-numeric string raises
`ValueError`; `int(None)` (the `Max` header missing entirely) raises
`TypeError`. -/
def pyMaxPoints (mp : PyVal) : Except PyErr (Option Int) :=
  if mp = .str "" then .ok Option.none
  else
    match mp with
    | .none => .error .typeError
    | .int n => .ok (some (-1 * n))
    | .str s =>
        match toIntPy s with
        | some n => .ok (some (-1 * n))
        | Option.none => .error .valueError

/-- `points` handling of `get_assignment_rubric`:
`points = -1 * row.get('Points', 0)`.  An absent key defaults to `0`
(handled by the caller); an `int` cell is negated; a string cell `s`
(including a blank cell) yields `-1 * s`, which in Python is the empty
string (negative sequence repetition), not an error. -/
def pyNegPoints : Cell → PyVal
  | .int n => .int (-n)
  | .str _ => .str ""

/-- One iteration of the row loop of `get_assignment_rubric`, threading the
rubric dict being built.  Mirrors the source statement by statement. -/
def parseRow (rubric : Rubric) (row : Row) : Except PyErr Rubric := do
  -- category = row.get('Category', None); skip blank separator rows
  let category := (row.category.map Cell.toPy).getD PyVal.none
  if category = PyVal.none ∨ category = PyVal.str "" then
    return rubric
  -- first row of a new category registers it with its (negated) point cap
  let rubric ←
    if (dictGet rubric category).isSome then pure rubric
    else do
      let mp ← pyMaxPoints ((row.maxPoints.map Cell.toPy).getD PyVal.none)
      pure (dictInsert rubric category (mp, ([] : List CommentInfo)))
  let name := (row.name.map Cell.toPy).getD PyVal.none
  let tier := (row.tier.map Cell.toPy).getD PyVal.none
  let points : PyVal := pyNegPoints (row.points.getD (Cell.int 0))
  -- text = row.get('Grader Caption', None); if text is None: continue
  let textv := (row.caption.map Cell.toPy).getD PyVal.none
  if textv = PyVal.none then
    return rubric
  let explanation := (row.explanation.map Cell.toPy).getD PyVal.none
  let instructions := (row.instructions.map Cell.toPy).getD PyVal.none
  -- template = row.get('Template?', ''); is_template = template.lower() in ('x', 'yes')
  let isTemplate : Bool ←
    match row.template.getD (Cell.str "") with
    | Cell.str s => pure (decide (pyLower s = "x" ∨ pyLower s = "yes"))
    | Cell.int _ => Except.error PyErr.typeError
  -- if tier is not None and tier != '': text = '\[T{tier}\] {text}'.format(...)
  let text :=
    if tier = PyVal.none ∨ tier = PyVal.str "" then textv
    else PyVal.str ("\\[T" ++ pyStr tier ++ "\\] " ++ pyStr textv)
  let comment : CommentInfo :=
    { name := name, text := text, pointDelta := points,
      explanation := explanation, instructionText := instructions,
      templateTextOn := isTemplate }
  -- rubric[category][1].append(comment)
  return dictModify rubric category (fun p => (p.1, p.2 ++ [comment]))

/-- `get_assignment_rubric(worksheet)`: fold the row loop over the records
of the worksheet, starting from the empty dict. -/
def get_assignment_rubric (rows : List Row) : Except PyErr Rubric :=
  rows.foldlM parseRow []

/-! ## The codePost remote state for one assignment -/

/-- An existing rubric comment on codePost (`comment.name`, `.id`, the
content fields, and the id of its owning rubric category). -/
structure RComment : Type where
  id : Nat
  name : PyVal
  text : PyVal
  pointDelta : PyVal
  explanation : PyVal
  instructionText : PyVal
  templateTextOn : Bool
  category : Nat
deriving DecidableEq, Repr

/-- An existing rubric category on codePost. -/
structure RCategory : Type where
  id : Nat
  name : PyVal
  pointLimit : Option Int
  sortKey : Option Nat
deriving DecidableEq, Repr

/-- The remote state of one assignment: its rubric categories (in fetch
order), its rubric comments, the number of existing submissions, and the
next opaque id the platform will hand out. -/
structure RemState : Type where
  categories : List RCategory
  comments : List RComment
  numSubs : Nat
  nextId : Nat
deriving DecidableEq, Repr

/-- One remote API call performed by the module.  `id` on the create
operations is the opaque id the platform assigns to the new object. -/
inductive Op : Type
  | deleteComment (id : Nat) (name : PyVal)
  | deleteCategory (id : Nat) (name : PyVal)
  | createCategory (id : Nat) (name : PyVal) (pointLimit : Option Int)
      (sortKey : Option Nat)
  | createComment (id : Nat) (category : Nat) (info : CommentInfo)
  | updateComment (id : Nat) (category : Nat) (info : CommentInfo)
deriving DecidableEq, Repr

/-- `category.rubricComments`: the comments currently bound to a category. -/
def RemState.commentsOf (st : RemState) (catId : Nat) : List RComment :=
  st.comments.filter (fun c => decide (c.category = catId))

/-- `comment.delete()`. -/
def RemState.delComment (st : RemState) (i : Nat) : RemState :=
  { st with comments := st.comments.filter (fun c => decide (¬ c.id = i)) }

/-- `category.delete()`: on codePost this cascades and also removes the
category's comments. -/
def RemState.delCategory (st : RemState) (i : Nat) : RemState :=
  { st with
      categories := st.categories.filter (fun c => decide (¬ c.id = i)),
      comments := st.comments.filter (fun c => decide (¬ c.category = i)) }

/-- `codepost.rubric_category.create(...)`: returns the created category. -/
def RemState.addCategory (st : RemState) (name : PyVal) (pl : Option Int)
    (sk : Option Nat) : RCategory × RemState :=
  let cat : RCategory := ⟨st.nextId, name, pl, sk⟩
  (cat, { st with categories := st.categories ++ [cat], nextId := st.nextId + 1 })

/-- Build the remote comment object created or written by
`codepost.rubric_comment.create(category=catId, **info)`. -/
def CommentInfo.toRemote (info : CommentInfo) (i : Nat) (catId : Nat) : RComment :=
  ⟨i, info.name, info.text, info.pointDelta, info.explanation,
   info.instructionText, info.templateTextOn, catId⟩

/-- `codepost.rubric_comment.create(category=catId, **info)`. -/
def RemState.addComment (st : RemState) (catId : Nat) (info : CommentInfo) :
    RemState :=
  { st with comments := st.comments ++ [info.toRemote st.nextId catId],
            nextId := st.nextId + 1 }

/-- `comment.update(id=comment.id, **info)`: rewrites the content fields
and touches neither the id nor the category binding (the call passes no
`category` argument). -/
def RemState.updComment (st : RemState) (i : Nat) (info : CommentInfo) :
    RemState :=
  let f := fun (c : RComment) =>
    if c.id = i then info.toRemote c.id c.category else c
  { st with comments := st.comments.map f }

/-! ## `wipe_and_create_assignment_rubric` -/

/-- Create one comment inside the wipe-mode rebuild loop. -/
def wipeCreateComment (catId : Nat) (a : List Op × RemState)
    (info : CommentInfo) : List Op × RemState :=
  (a.1 ++ [Op.createComment a.2.nextId catId info], a.2.addComment catId info)

/-- One iteration of
`for sort_key, (c_name, (max_points, comments)) in enumerate(rubric.items())`. -/
def wipeCreateCategory (a : List Op × RemState)
    (p : Nat × PyVal × Option Int × List CommentInfo) : List Op × RemState :=
  let (sortKey, cname, maxPts, comments) := p
  let (cat, s) := a.2.addCategory cname maxPts (some sortKey)
  comments.foldl (wipeCreateComment cat.id)
    (a.1 ++ [Op.createCategory cat.id cname maxPts (some sortKey)], s)

/-- `wipe_and_create_assignment_rubric(a_id, rubric, override_rubric)`:
refuse when submissions exist and no override; otherwise delete every
fetched category, then recreate the target tree in target order with
`sortKey` equal to the enumeration index. -/
def wipe_and_create_assignment_rubric (st : RemState) (rubric : Rubric)
    (override_rubric : Bool) : List Op × RemState :=
  if st.numSubs > 0 ∧ ¬ override_rubric then ([], st)
  else
    let delOps := st.categories.map (fun c => Op.deleteCategory c.id c.name)
    let st1 := st.categories.foldl (fun s c => s.delCategory c.id) st
    rubric.enum.foldl wipeCreateCategory (delOps, st1)

/-! ## `create_assignment_rubric` (incremental mode)

The function body is split into the dictionaries it builds and four
phases, mirroring the source blocks in order: delete missing comments and
then empty categories, create missing categories, update existing
comments, create new comments. -/

/-- `categories[category.name] = category` over `assignment.rubricCategories`. -/
def categoriesDict (st : RemState) : Dict PyVal RCategory :=
  st.categories.foldl (fun d c => dictInsert d c.name c) []

/-- `old_comments[comment.name] = comment` over every fetched category's
comments. -/
def oldCommentsDict (st : RemState) : Dict PyVal RComment :=
  st.categories.foldl
    (fun d c => (st.commentsOf c.id).foldl (fun d cm => dictInsert d cm.name cm) d)
    []

/-- `comment_categories[comment['name']] = category` over the sheet rubric. -/
def commentCategoriesDict (rubric : Rubric) : Dict PyVal PyVal :=
  rubric.foldl
    (fun d p => p.2.2.foldl (fun d c => dictInsert d c.name p.1) d) []

/-- `rubric_comments[comment['name']] = comment` over the sheet rubric. -/
def rubricCommentsDict (rubric : Rubric) : Dict PyVal CommentInfo :=
  rubric.foldl
    (fun d p => p.2.2.foldl (fun d c => dictInsert d c.name c) d) []

/-- `existing_names = set(old_comments.keys())`. -/
def existingNames (st : RemState) : List PyVal := dictKeys (oldCommentsDict st)

/-- `sheet_names = set(rubric_comments.keys())`. -/
def sheetNames (rubric : Rubric) : List PyVal := dictKeys (rubricCommentsDict rubric)

/-- `missing_names = existing_names - sheet_names` (set difference; iterated
here in `old_comments` insertion order). -/
def missingNames (st : RemState) (rubric : Rubric) : List PyVal :=
  (existingNames st).filter (fun n => decide (¬ n ∈ sheetNames rubric))

/-- `missing_comments = [old_comments.pop(name) for name in missing_names]` —
the collected comment objects. -/
def missingComments (st : RemState) (rubric : Rubric) : List RComment :=
  (missingNames st rubric).filterMap (fun n => dictGet (oldCommentsDict st) n)

/-- `old_comments` after the pops of the missing names. -/
def prunedOldComments (st : RemState) (rubric : Rubric) : Dict PyVal RComment :=
  (missingNames st rubric).foldl (fun d n => dictPop d n) (oldCommentsDict st)

/-- `new_names = sheet_names - existing_names` (set difference; iterated
here in `rubric_comments` insertion order). -/
def newNames (st : RemState) (rubric : Rubric) : List PyVal :=
  (sheetNames rubric).filter (fun n => decide (¬ n ∈ existingNames st))

/-- `comment.delete()` for one missing comment, recording the call. -/
def delCommentStep (a : List Op × RemState) (cm : RComment) : List Op × RemState :=
  (a.1 ++ [Op.deleteComment cm.id cm.name], a.2.delComment cm.id)

/-- One iteration of the empty-category cleanup loop
`for c_name in list(categories.keys())`: look the category up in the
`categories` dict, re-read its live `rubricComments`, and delete it (and
pop it from the dict) when that list is empty. -/
def cleanupStep (a : List Op × RemState × Dict PyVal RCategory) (cname : PyVal) :
    List Op × RemState × Dict PyVal RCategory :=
  match dictGet a.2.2 cname with
  | some cat =>
      if (a.2.1.commentsOf cat.id).length = 0 then
        (a.1 ++ [Op.deleteCategory cat.id cat.name], a.2.1.delCategory cat.id,
         dictPop a.2.2 cname)
      else a
  | Option.none => a

/-- The deletion block: if there are missing comments and `delete_missing`
is set, delete them all, then walk the categories and delete those whose
comment list is now empty.  Returns the ops, the state, and the
`categories` dict (with deleted categories popped). -/
def phase1 (st : RemState) (rubric : Rubric) (delete_missing : Bool) :
    List Op × RemState × Dict PyVal RCategory :=
  if (missingComments st rubric).length > 0 ∧ delete_missing then
    let a := (missingComments st rubric).foldl delCommentStep ([], st)
    (dictKeys (categoriesDict st)).foldl cleanupStep (a.1, a.2, categoriesDict st)
  else ([], st, categoriesDict st)

/-- `codepost.rubric_category.create(name=c_name, assignment=a_id,
pointLimit=max_points)` for one missing category (no `sortKey` is passed
in incremental mode). -/
def createCategoryStep (rubric : Rubric)
    (a : List Op × RemState × Dict PyVal RCategory) (cname : PyVal) :
    Except PyErr (List Op × RemState × Dict PyVal RCategory) := do
  let some pv := dictGet rubric cname | Except.error PyErr.keyError
  let (cat, s) := a.2.1.addCategory cname pv.1 Option.none
  return (a.1 ++ [Op.createCategory cat.id cname pv.1 Option.none], s,
          dictInsert a.2.2 cname cat)

/-- The category-creation block: `missing_categories = new_categories -
existing_categories` (iterated here in `rubric` insertion order), each
created and recorded in the `categories` dict. -/
def phase2 (rubric : Rubric) (a : List Op × RemState × Dict PyVal RCategory) :
    Except PyErr (List Op × RemState × Dict PyVal RCategory) :=
  ((dictKeys rubric).filter (fun n => decide (¬ n ∈ dictKeys a.2.2))).foldlM
    (createCategoryStep rubric) a

/-- `comment.update(id=comment.id, **rubric_comments[name])` for one
existing comment. -/
def updateCommentStep (rc : Dict PyVal CommentInfo) (a : List Op × RemState)
    (p : PyVal × RComment) : Except PyErr (List Op × RemState) := do
  let some info := dictGet rc p.1 | Except.error PyErr.keyError
  return (a.1 ++ [Op.updateComment p.2.id p.2.category info],
          a.2.updComment p.2.id info)

/-- The update block: `for name, comment in old_comments.items()` after the
missing names were popped. -/
def phase3 (st0 : RemState) (rubric : Rubric) (a : List Op × RemState) :
    Except PyErr (List Op × RemState) :=
  (prunedOldComments st0 rubric).foldlM
    (updateCommentStep (rubricCommentsDict rubric)) a

/-- `codepost.rubric_comment.create(category=categories[comment_categories[name]].id,
**rubric_comments[name])` for one new comment name. -/
def createCommentStep (cc : Dict PyVal PyVal) (rc : Dict PyVal CommentInfo)
    (cats : Dict PyVal RCategory) (a : List Op × RemState) (n : PyVal) :
    Except PyErr (List Op × RemState) := do
  let some cname := dictGet cc n | Except.error PyErr.keyError
  let some cat := dictGet cats cname | Except.error PyErr.keyError
  let some info := dictGet rc n | Except.error PyErr.keyError
  return (a.1 ++ [Op.createComment a.2.nextId cat.id info],
          a.2.addComment cat.id info)

/-- The creation block: `for name in new_names` (iterated here in
`rubric_comments` insertion order). -/
def phase4 (st0 : RemState) (rubric : Rubric) (cats : Dict PyVal RCategory)
    (a : List Op × RemState) : Except PyErr (List Op × RemState) :=
  (newNames st0 rubric).foldlM
    (createCommentStep (commentCategoriesDict rubric) (rubricCommentsDict rubric) cats)
    a

/-- `create_assignment_rubric(a_id, rubric, override_rubric, delete_missing)`:
the incremental reconciliation engine, assembled from the phases above in
source order, behind the submissions guard. -/
def create_assignment_rubric (st : RemState) (rubric : Rubric)
    (override_rubric delete_missing : Bool) :
    Except PyErr (List Op × RemState) := do
  if st.numSubs > 0 ∧ ¬ override_rubric then
    return ([], st)
  let a1 := phase1 st rubric delete_missing
  let a2 ← phase2 rubric a1
  let a3 ← phase3 st rubric (a2.1, a2.2.1)
  let a4 ← phase4 st rubric a2.2.2 a3
  return a4

/-- `create_all_rubrics(rubrics, override_rubric, delete_missing, wipe_existing)`.
The source's loop body is
`create_assignment_rubric(a_id, rubric, override_rubric, delete_missing, wipe_existing)` —
five positional arguments to a function whose signature
`create_assignment_rubric(a_id, rubric, override_rubric=False, delete_missing=False)`
accepts at most four positional arguments, so in Python the first
iteration raises `TypeError` at the call site, before any reconciliation
work happens, and `wipe_and_create_assignment_rubric` is never reached on
any path of the module.  The embedding therefore returns that `TypeError`
whenever the loop body runs at least once. -/
def create_all_rubrics (rubrics : Dict Int Rubric)
    (override_rubric delete_missing wipe_existing : Bool) :
    Except PyErr Unit :=
  match rubrics with
  | [] => .ok ()
  | _ :: _ => .error .typeError

/-! ## `get_all_rubric_comments` -/

/-- One worksheet in the scanned index range: its `A1` cell (a string) and
its records. -/
structure WSheet : Type where
  a1 : String
  rows : List Row
deriving DecidableEq, Repr

/-- One iteration of the worksheet loop of `get_all_rubric_comments`:
parse `A1` (a `ValueError` is caught and skips the sheet), skip ids not in
the remaining assignment-id set, otherwise parse the rubric, store it
under the id, and remove the id from the set. -/
def sheetStep (a : Dict Int Rubric × List Int) (ws : WSheet) :
    Except PyErr (Dict Int Rubric × List Int) := do
  match toIntPy ws.a1 with
  | Option.none => return a
  | some a_id =>
      if a_id ∈ a.2 then do
        let rubric ← get_assignment_rubric ws.rows
        return (dictInsert a.1 a_id rubric,
                a.2.filter (fun x => decide (¬ x = a_id)))
      else return a

/-- `get_all_rubric_comments(course, sheet, start_sheet, end_sheet)`:
`a_ids` is the course's assignment-id set, `sheets` the worksheets of the
scanned index range in order. -/
def get_all_rubric_comments (a_ids : List Int) (sheets : List WSheet) :
    Except PyErr (Dict Int Rubric) := do
  let r ← sheets.foldlM sheetStep ([], a_ids)
  return r.1

/-! ## Concrete scenarios used by the claims -/

/-- Shorthand for a sheet comment dictionary with string name/text, an
integer point delta, and no explanation/instructions/template flag. -/
def mkInfo (nm tx : String) (pd : Int) : CommentInfo :=
  ⟨.str nm, .str tx, .int pd, .none, .none, false⟩

/-- Shorthand for a remote comment with string name/text and an integer
point delta. -/
def mkRC (i : Nat) (nm tx : String) (pd : Int) (cat : Nat) : RComment :=
  ⟨i, .str nm, .str tx, .int pd, .none, .none, false, cat⟩

/-- A sheet row with every header present (as on a real sheet, where
`get_records` surfaces every header of row 2 and blank cells are `''`). -/
def mkSheetRow (cat mx nm tr pts cap tmpl : Cell) : Row :=
  ⟨some cat, some mx, some nm, some tr, some pts, some cap,
   some (Cell.str ""), some (Cell.str ""), some tmpl⟩

/-- Blank cell. -/
def bc : Cell := Cell.str ""

/-- Row whose `Points` cell holds `5`. -/
def rowPoints5 : Row := mkSheetRow (.str "C") bc (.str "n") bc (.int 5) (.str "cap") bc

/-- Row whose `Points` cell is blank. -/
def rowPointsBlank : Row := mkSheetRow (.str "C") bc (.str "n") bc bc (.str "cap") bc

/-- Row whose `Max` cell holds `10`. -/
def rowMax10 : Row := mkSheetRow (.str "C") (.int 10) (.str "n") bc bc (.str "cap") bc

/-- Row whose `Max` cell is blank. -/
def rowMaxBlank : Row := mkSheetRow (.str "C") bc (.str "n") bc bc (.str "cap") bc

/-- Row whose `Max` cell holds the non-numeric string `"abc"`. -/
def rowMaxGarbage : Row := mkSheetRow (.str "C") (.str "abc") (.str "n") bc bc (.str "cap") bc

/-- Row whose `Points` cell holds the non-numeric string `"abc"`. -/
def rowPointsGarbage : Row := mkSheetRow (.str "C") bc (.str "n") bc (.str "abc") (.str "cap") bc

/-- Row with a `Max` cap whose `Grader Caption` key is absent (the caption
column is missing from the sheet). -/
def rowNoCaption : Row :=
  ⟨some (.str "C"), some (.int 10), some (.str "n"), some bc, some bc,
   Option.none, some bc, some bc, some bc⟩

/-- Row whose `Grader Caption` cell is present but blank. -/
def rowBlankCaption : Row := mkSheetRow (.str "C") bc (.str "n") bc bc bc bc

/-- The comment produced by `rowPointsBlank` / `rowPointsGarbage`:
`pointDelta` is the empty string `-1 * ''`. -/
def cmtEmptyDelta : CommentInfo :=
  ⟨.str "n", .str "cap", .str "", .str "", .str "", false⟩

/-- The sheet comment `B` as both target and observed content. -/
def infoB : CommentInfo := mkInfo "B" "tb" (-2)

/-- Idempotence scenario: one category `X` (id 1) holding one comment `B`
(id 2) whose content equals the target's. -/
def stIdem : RemState :=
  ⟨[⟨1, .str "X", Option.none, Option.none⟩], [mkRC 2 "B" "tb" (-2) 1], 0, 3⟩

/-- Target tree matching `stIdem` exactly. -/
def rubIdem : Rubric := [(.str "X", (Option.none, [infoB]))]

/-- Cascade scenario: category `X` (id 1) already empty before the run,
category `Y` (id 2) holding the single comment `A` (id 3). -/
def stCascade : RemState :=
  ⟨[⟨1, .str "X", Option.none, Option.none⟩, ⟨2, .str "Y", Option.none, Option.none⟩],
   [mkRC 3 "A" "ta" (-1) 2], 0, 4⟩

/-- Set-diff scenario: one category `X` (id 1) holding `A` (id 2), `B`
(id 3), `C` (id 4). -/
def stSetDiff : RemState :=
  ⟨[⟨1, .str "X", Option.none, Option.none⟩],
   [mkRC 2 "A" "ta" (-1) 1, mkRC 3 "B" "tb" (-2) 1, mkRC 4 "C" "tc" (-3) 1], 0, 5⟩

/-- Set-diff target: `X` holds `B`, `C` (updated content) and `D`. -/
def rubSetDiff : Rubric :=
  [(.str "X",
    (Option.none, [mkInfo "B" "tb2" (-2), mkInfo "C" "tc2" (-3), mkInfo "D" "td" (-4)]))]

/-- Wipe scenario: observed categories `X` (id 1) and `Y` (id 2, holding
comment `A`), and a target that overlaps the observed names on `Y`. -/
def stWipe : RemState :=
  ⟨[⟨1, .str "X", Option.none, Option.none⟩, ⟨2, .str "Y", some (-3), Option.none⟩],
   [mkRC 3 "A" "ta" (-1) 2], 0, 10⟩

/-- Wipe-mode target: categories `Y` (capped, one comment) and `Z`
(two comments). -/
def rubWipe : Rubric :=
  [(.str "Y", (some (-5), [mkInfo "c1" "t1" 0])),
   (.str "Z", (Option.none, [mkInfo "c2" "t2" (-1), mkInfo "c3" "t3" (-2)]))]

/-- A state with one existing submission (and the `stIdem` rubric). -/
def stGuarded : RemState :=
  ⟨[⟨1, .str "X", Option.none, Option.none⟩], [mkRC 2 "B" "tb" (-2) 1], 1, 3⟩

/-- The update operations phase 3 emits: one `updateComment` per entry of
the pruned `old_comments` dict, carrying the observed comment's id and
category binding and the target's content fields. -/
def updOps (rc : Dict PyVal CommentInfo) (l : Dict PyVal RComment) : List Op :=
  l.filterMap
    (fun p => (dictGet rc p.1).map
      (fun info => Op.updateComment p.2.id p.2.category info))

/-- The remote state right after the missing-comment deletions (before the
empty-category cleanup). -/
def afterDeleteState (st : RemState) (rubric : Rubric) : RemState :=
  ((missingComments st rubric).foldl delCommentStep ([], st)).2

/-! ## Supporting lemmas -/

/-- A cell value never embeds to Python `None`. -/
theorem Cell.toPy_ne_pynone (c : Cell) : ¬ Cell.toPy c = PyVal.none := by
  cases c <;> simp [Cell.toPy]

/-! ## Claim theorems -/

/-- C4: for every assignment with at least one existing submission and
`overrideIfSubmissions = false`, both reconciliation modes return an empty
plan and leave the observed remote state untouched. -/
theorem C4_guard_refusal (st : RemState) (rubric : Rubric) (dm : Bool)
    (h : 1 ≤ st.numSubs) :
    create_assignment_rubric st rubric false dm = Except.ok ([], st) ∧
    wipe_and_create_assignment_rubric st rubric false = ([], st) := by
  have hc : st.numSubs > 0 ∧ ¬ ((false : Bool) = true) := ⟨h, by simp⟩
  constructor
  · simp only [create_assignment_rubric]
    rw [if_pos hc]
    rfl
  · simp only [wipe_and_create_assignment_rubric]
    rw [if_pos hc]

/-- Witness for C4 at a concrete guarded state. -/
theorem C4_guard_refusal_witness :
    create_assignment_rubric stGuarded rubIdem false true = Except.ok ([], stGuarded) ∧
    wipe_and_create_assignment_rubric stGuarded rubIdem false = ([], stGuarded) :=
  C4_guard_refusal stGuarded rubIdem true (by decide)

/-- C5: with observed comments `{A, B, C}` and target comments `{B, C, D}`
under one shared category and `deleteMissing = true`, the incremental plan
is exactly: delete `A`, update `B`, update `C`, create `D` — four
operations, with the deletion of `A` before the creation of `D`. -/
theorem C5_set_diff :
    create_assignment_rubric stSetDiff rubSetDiff false true =
      Except.ok
        ([Op.deleteComment 2 (.str "A"),
          Op.updateComment 3 1 (mkInfo "B" "tb2" (-2)),
          Op.updateComment 4 1 (mkInfo "C" "tc2" (-3)),
          Op.createComment 5 1 (mkInfo "D" "td" (-4))],
         ⟨[⟨1, .str "X", Option.none, Option.none⟩],
          [mkRC 3 "B" "tb2" (-2) 1, mkRC 4 "C" "tc2" (-3) 1, mkRC 5 "D" "td" (-4) 1],
          0, 6⟩) := by
  rfl

/-- C3: every run of the program with the wipe flag set dies with a
`TypeError` inside `create_all_rubrics` (it passes five positional
arguments to the four-parameter `create_assignment_rubric`), while the
dead `wipe_and_create_assignment_rubric` routine itself does emit the plan
the claim describes: delete every observed category once, then recreate
the target tree in order with position-index sort keys. -/
theorem C3_wipe_mode :
    create_all_rubrics [((1 : Int), rubWipe)] false false true =
      Except.error PyErr.typeError ∧
    wipe_and_create_assignment_rubric stWipe rubWipe false =
      ([Op.deleteCategory 1 (.str "X"),
        Op.deleteCategory 2 (.str "Y"),
        Op.createCategory 10 (.str "Y") (some (-5)) (some 0),
        Op.createComment 11 10 (mkInfo "c1" "t1" 0),
        Op.createCategory 12 (.str "Z") Option.none (some 1),
        Op.createComment 13 12 (mkInfo "c2" "t2" (-1)),
        Op.createComment 14 12 (mkInfo "c3" "t3" (-2))],
       ⟨[⟨10, .str "Y", some (-5), some 0⟩, ⟨12, .str "Z", Option.none, some 1⟩],
        [mkRC 11 "c1" "t1" 0 10, mkRC 13 "c2" "t2" (-1) 12, mkRC 14 "c3" "t3" (-2) 12],
        0, 15⟩) := by
  exact ⟨rfl, rfl⟩

/-- C6 counterexample: a present-but-blank `Points` cell does not yield
`pointDelta = 0`; Python's `-1 * ''` is the empty string, so the comment
is stored with `pointDelta = ''`. -/
theorem C6_counterexample :
    get_assignment_rubric [rowPointsBlank] =
      Except.ok [(.str "C", (Option.none, [cmtEmptyDelta]))] ∧
    ¬ cmtEmptyDelta.pointDelta = PyVal.int 0 := by
  exact ⟨rfl, by decide⟩

/-- C6 as amended: `Points = 5` yields `pointDelta = -5` and `Max = 10`
yields `pointCap = -10`, blank `Max` yields `pointCap = None`; but a
blank `Points` cell yields `pointDelta = ''` (the missing-key default `0`
applies only when the Points column is absent from the row mapping). -/
theorem C6_point_sign :
    get_assignment_rubric [rowPoints5] =
      Except.ok [(.str "C",
        (Option.none, [⟨.str "n", .str "cap", .int (-5), .str "", .str "", false⟩]))] ∧
    get_assignment_rubric [rowPointsBlank] =
      Except.ok [(.str "C", (Option.none, [cmtEmptyDelta]))] ∧
    get_assignment_rubric [rowMax10] =
      Except.ok [(.str "C", (some (-10), [cmtEmptyDelta]))] ∧
    get_assignment_rubric [rowMaxBlank] =
      Except.ok [(.str "C", (Option.none, [cmtEmptyDelta]))] := by
  exact ⟨rfl, rfl, rfl, rfl⟩

/-- C7 counterexample: a non-numeric `Points` cell is not a parse failure;
the row still produces a rubric entry, with `pointDelta` silently coerced
to the empty string by `-1 * 'abc'`. -/
theorem C7_counterexample :
    get_assignment_rubric [rowPointsGarbage] =
      Except.ok [(.str "C", (Option.none, [cmtEmptyDelta]))] := by
  rfl

/-- C7 as amended: a non-numeric, non-blank `Max` cell raises `ValueError`
(a parse failure for the row), for every such string; a non-numeric
`Points` cell does not fail and yields a comment with `pointDelta = ''`. -/
theorem C7_numeric_garbage :
    (∀ s : String, ¬ s = "" → toIntPy s = Option.none →
      pyMaxPoints (PyVal.str s) = Except.error PyErr.valueError) ∧
    get_assignment_rubric [rowMaxGarbage] = Except.error PyErr.valueError ∧
    get_assignment_rubric [rowPointsGarbage] =
      Except.ok [(.str "C", (Option.none, [cmtEmptyDelta]))] := by
  refine ⟨?_, rfl, rfl⟩
  intro s hs hparse
  simp [pyMaxPoints, hs, hparse]

/-- Witness for C7 at the concrete garbage string `"abc"`. -/
theorem C7_numeric_garbage_witness :
    pyMaxPoints (PyVal.str "abc") = Except.error PyErr.valueError :=
  C7_numeric_garbage.1 "abc" (by decide) rfl

/-- C8 counterexample: a present-but-blank caption cell does not skip the
row; the comment is emitted with empty display text (only a caption key
that is missing from the row mapping is skipped, since the code tests
`text is None`, and a blank cell is `''`, not `None`). -/
theorem C8_counterexample :
    get_assignment_rubric [rowBlankCaption] =
      Except.ok [(.str "C",
        (Option.none, [⟨.str "n", .str "", .str "", .str "", .str "", false⟩]))] := by
  rfl

/-- C8 as amended: for every row whose caption key is missing from the row
mapping, no comment is emitted, but if the row is the first row of its
category (and its `Max` cell parses), the category is still registered
with its point cap. -/
theorem C8_missing_caption (rubric : Rubric) (row : Row) (c : Cell)
    (mp : Option Int)
    (hcap : row.caption = Option.none)
    (hcat : row.category = some c)
    (hnb : ¬ Cell.toPy c = PyVal.str "")
    (hnew : dictGet rubric (Cell.toPy c) = Option.none)
    (hmp : pyMaxPoints ((row.maxPoints.map Cell.toPy).getD PyVal.none) =
             Except.ok mp) :
    parseRow rubric row =
      Except.ok (dictInsert rubric (Cell.toPy c) (mp, [])) := by
  have hnn := Cell.toPy_ne_pynone c
  simp [parseRow, hcat, hcap, hnew, hmp, hnn, hnb]

/-- Witness for C8 on `rowNoCaption` against the empty rubric. -/
theorem C8_missing_caption_witness :
    parseRow [] rowNoCaption =
      Except.ok (dictInsert [] (Cell.toPy (.str "C")) (some (-10), [])) :=
  C8_missing_caption [] rowNoCaption (.str "C") (some (-10)) rfl rfl
    (by decide) rfl rfl

/-- C1 counterexample: a second run against a remote rubric that already
matches the target does not yield an empty plan; every existing comment is
unconditionally re-updated (the state, however, does not change). -/
theorem C1_counterexample :
    create_assignment_rubric stIdem rubIdem false true =
      Except.ok ([Op.updateComment 2 1 infoB], stIdem) ∧
    ¬ ([Op.updateComment 2 1 infoB] : List Op) = [] := by
  exact ⟨rfl, by decide⟩

/-- C2 counterexample: with `deleteMissing = true`, the category `X`
(id 1) that was already empty before the run — `stCascade.commentsOf 1 = []`
— is nevertheless deleted, because the cleanup pass removes every category
that is empty after the deletions, not only those emptied by them. -/
theorem C2_counterexample :
    create_assignment_rubric stCascade [] false true =
      Except.ok
        ([Op.deleteComment 3 (.str "A"),
          Op.deleteCategory 1 (.str "X"),
          Op.deleteCategory 2 (.str "Y")],
         ⟨[], [], 0, 4⟩) ∧
    stCascade.commentsOf 1 = [] := by
  exact ⟨rfl, rfl⟩

/-! ## Dictionary lemmas -/

theorem dictGet_insert {α β : Type} [DecidableEq α] (d : Dict α β) (k k' : α)
    (v : β) :
    dictGet (dictInsert d k v) k' = if k' = k then some v else dictGet d k' := by
  induction d with
  | nil =>
      by_cases h : k' = k
      · subst h; simp [dictInsert, dictGet]
      · simp [dictInsert, dictGet, h, Ne.symm h]
  | cons hd tl ih =>
      obtain ⟨a, b⟩ := hd
      by_cases hak : a = k
      · subst hak
        by_cases h : k' = a
        · subst h; simp [dictInsert, dictGet]
        · simp [dictInsert, dictGet, h, Ne.symm h]
      · by_cases h : k' = a
        · subst h
          simp [dictInsert, dictGet, hak, fun hh : k' = k => hak (hh ▸ rfl)]
        · simp [dictInsert, dictGet, hak, h, Ne.symm h, ih]

theorem dictKeys_insert {α β : Type} [DecidableEq α] (d : Dict α β) (k : α)
    (v : β) :
    dictKeys (dictInsert d k v) =
      if k ∈ dictKeys d then dictKeys d else dictKeys d ++ [k] := by
  induction d with
  | nil => simp [dictInsert, dictKeys]
  | cons hd tl ih =>
      obtain ⟨a, b⟩ := hd
      by_cases hak : a = k
      · subst hak
        simp [dictInsert, dictKeys]
      · have hka : ¬ k = a := fun h => hak h.symm
        by_cases hmem : k ∈ List.map Prod.fst tl
        · simp [dictInsert, dictKeys, hak, hka, hmem] at ih ⊢
          exact ih
        · simp [dictInsert, dictKeys, hak, hka, hmem] at ih ⊢
          exact ih

theorem dictGet_isSome_iff {α β : Type} [DecidableEq α] (d : Dict α β) (k : α) :
    (dictGet d k).isSome = true ↔ k ∈ dictKeys d := by
  induction d with
  | nil => simp [dictGet, dictKeys]
  | cons hd tl ih =>
      obtain ⟨a, b⟩ := hd
      by_cases hk : a = k
      · subst hk
        simp [dictGet, dictKeys]
      · have hk' : ¬ k = a := fun h => hk h.symm
        simp [dictGet, dictKeys, hk, hk', ih]

theorem mem_dictKeys_of_mem {α β : Type} {d : Dict α β} {p : α × β}
    (h : p ∈ d) : p.1 ∈ dictKeys d :=
  List.mem_map_of_mem Prod.fst h

theorem dictPop_sublist {α β : Type} [DecidableEq α] (d : Dict α β) (k : α) :
    List.Sublist (dictPop d k) d := by
  induction d with
  | nil => simp [dictPop]
  | cons hd tl ih =>
      obtain ⟨a, b⟩ := hd
      by_cases hk : a = k
      · simp only [dictPop, if_pos hk]
        exact List.sublist_cons_self (a, b) tl
      · simpa [dictPop, hk] using List.Sublist.cons₂ (a, b) ih

theorem dictGet_pop_ne {α β : Type} [DecidableEq α] (d : Dict α β) (k k' : α)
    (h : ¬ k' = k) : dictGet (dictPop d k) k' = dictGet d k' := by
  induction d with
  | nil => simp [dictPop]
  | cons hd tl ih =>
      obtain ⟨a, b⟩ := hd
      by_cases hak : a = k
      · subst hak
        have hne : ¬ a = k' := fun hh => h hh.symm
        simp [dictPop, dictGet, hne]
      · simp [dictPop, dictGet, hak, ih]

theorem dictKeys_pop {α β : Type} [DecidableEq α] (d : Dict α β) (k : α)
    (h : (dictKeys d).Nodup) :
    dictKeys (dictPop d k) = (dictKeys d).filter (fun x => decide (¬ x = k)) := by
  induction d with
  | nil => rfl
  | cons hd tl ih =>
      obtain ⟨a, b⟩ := hd
      have hkeys : dictKeys ((a, b) :: tl) = a :: dictKeys tl := rfl
      rw [hkeys, List.nodup_cons] at h
      obtain ⟨hna, hnd⟩ := h
      by_cases hak : a = k
      · subst hak
        have h1 : dictPop ((a, b) :: tl) a = tl := by simp [dictPop]
        rw [h1, hkeys, List.filter_cons]
        have hfa : ∀ x ∈ dictKeys tl, (fun x => decide (¬ x = a)) x = true := by
          intro x hx
          simp only [decide_eq_true_eq]
          exact fun hxa => hna (hxa ▸ hx)
        simp only [decide_eq_true_eq, not_true, decide_eq_false_iff_not]
        rw [if_neg (by simp)]
        exact (List.filter_eq_self.mpr hfa).symm
      · have h1 : dictPop ((a, b) :: tl) k = (a, b) :: dictPop tl k := by
          simp [dictPop, hak]
        rw [h1]
        have h2 : dictKeys ((a, b) :: dictPop tl k) = a :: dictKeys (dictPop tl k) := rfl
        rw [h2, hkeys, List.filter_cons, if_pos (by simpa using hak), ih hnd]

theorem nodup_dictKeys_pop {α β : Type} [DecidableEq α] (d : Dict α β) (k : α)
    (h : (dictKeys d).Nodup) : (dictKeys (dictPop d k)).Nodup :=
  (List.Sublist.map Prod.fst (dictPop_sublist d k)).nodup h

theorem foldl_pop_sublist {α β : Type} [DecidableEq α] (l : List α) :
    ∀ d : Dict α β, List.Sublist (l.foldl (fun d n => dictPop d n) d) d := by
  induction l with
  | nil => intro d; simp
  | cons hd tl ih =>
      intro d
      exact (ih (dictPop d hd)).trans (dictPop_sublist d hd)

theorem dictGet_foldl_pop {α β : Type} [DecidableEq α] (l : List α) :
    ∀ d : Dict α β, ∀ k, ¬ k ∈ l →
      dictGet (l.foldl (fun d n => dictPop d n) d) k = dictGet d k := by
  induction l with
  | nil => intro d k _; rfl
  | cons hd tl ih =>
      intro d k hk
      have h1 : ¬ k ∈ tl := fun h => hk (List.mem_cons_of_mem hd h)
      have h2 : ¬ k = hd := fun h => hk (h ▸ List.mem_cons_self k tl)
      rw [List.foldl_cons, ih (dictPop d hd) k h1, dictGet_pop_ne d hd k h2]

theorem dictKeys_foldl_pop {α β : Type} [DecidableEq α] (l : List α) :
    ∀ d : Dict α β, (dictKeys d).Nodup →
      dictKeys (l.foldl (fun d n => dictPop d n) d) =
        (dictKeys d).filter (fun x => decide (¬ x ∈ l)) := by
  induction l with
  | nil => intro d _; simp
  | cons hd tl ih =>
      intro d hn
      rw [List.foldl_cons, ih (dictPop d hd) (nodup_dictKeys_pop d hd hn),
          dictKeys_pop d hd hn, List.filter_filter]
      apply List.filter_congr
      intro x hx
      by_cases h1 : x = hd <;> by_cases h2 : x ∈ tl <;>
        simp [h1, h2, List.mem_cons]

theorem nodup_dictKeys_insert {α β : Type} [DecidableEq α] (d : Dict α β)
    (k : α) (v : β) (h : (dictKeys d).Nodup) :
    (dictKeys (dictInsert d k v)).Nodup := by
  rw [dictKeys_insert]
  by_cases hm : k ∈ dictKeys d
  · rwa [if_pos hm]
  · rw [if_neg hm]
    exact List.Nodup.append h (List.nodup_singleton k)
      (by simpa [List.disjoint_singleton] using hm)

theorem nodup_dictKeys_foldl {α β γ : Type} (F : Dict α β → γ → Dict α β)
    (hF : ∀ d x, (dictKeys d).Nodup → (dictKeys (F d x)).Nodup) (l : List γ) :
    ∀ d : Dict α β, (dictKeys d).Nodup → (dictKeys (l.foldl F d)).Nodup := by
  induction l with
  | nil => intro d h; exact h
  | cons hd tl ih => intro d h; exact ih (F d hd) (hF d hd h)

theorem nodup_dictKeys_foldl_insert {α β γ : Type} [DecidableEq α]
    (f : γ → α) (g : γ → β) (l : List γ) (d : Dict α β)
    (h : (dictKeys d).Nodup) :
    (dictKeys (l.foldl (fun d x => dictInsert d (f x) (g x)) d)).Nodup :=
  nodup_dictKeys_foldl _ (fun d x hd => nodup_dictKeys_insert d (f x) (g x) hd) l d h

theorem dictKeys_foldl_congr {α β β' γ : Type} (F : Dict α β → γ → Dict α β)
    (G : Dict α β' → γ → Dict α β')
    (h : ∀ d d' x, dictKeys d = dictKeys d' → dictKeys (F d x) = dictKeys (G d' x))
    (l : List γ) :
    ∀ (d : Dict α β) (d' : Dict α β'), dictKeys d = dictKeys d' →
      dictKeys (l.foldl F d) = dictKeys (l.foldl G d') := by
  induction l with
  | nil => intro d d' hk; exact hk
  | cons hd tl ih => intro d d' hk; exact ih (F d hd) (G d' hd) (h d d' hd hk)

theorem dictKeys_insert_congr {α β β' : Type} [DecidableEq α]
    (d : Dict α β) (d' : Dict α β') (k : α) (v : β) (v' : β')
    (h : dictKeys d = dictKeys d') :
    dictKeys (dictInsert d k v) = dictKeys (dictInsert d' k v') := by
  rw [dictKeys_insert, dictKeys_insert, h]

theorem dictGet_foldl_insert_origin {α β γ : Type} [DecidableEq α]
    (f : γ → α) (g : γ → β) (l : List γ) :
    ∀ (d : Dict α β) (n : α) (v : β),
      dictGet (l.foldl (fun d x => dictInsert d (f x) (g x)) d) n = some v →
      (∃ x ∈ l, v = g x) ∨ dictGet d n = some v := by
  induction l with
  | nil => intro d n v h; exact Or.inr h
  | cons hd tl ih =>
      intro d n v h
      rcases ih _ n v h with ⟨x, hx, hv⟩ | h2
      · exact Or.inl ⟨x, List.mem_cons_of_mem hd hx, hv⟩
      · rw [dictGet_insert] at h2
        by_cases hn : n = f hd
        · rw [if_pos hn] at h2
          exact Or.inl ⟨hd, List.mem_cons_self hd tl, (Option.some.injEq _ _ ▸ h2).symm⟩
        · rw [if_neg hn] at h2
          exact Or.inr h2

theorem dictGet_isSome_foldl_insert {α β γ : Type} [DecidableEq α]
    (f : γ → α) (g : γ → β) (l : List γ) :
    ∀ (d : Dict α β) (n : α),
      (dictGet d n).isSome = true →
      (dictGet (l.foldl (fun d x => dictInsert d (f x) (g x)) d) n).isSome = true := by
  induction l with
  | nil => intro d n h; exact h
  | cons hd tl ih =>
      intro d n h
      refine ih _ n ?_
      rw [dictGet_insert]
      by_cases hn : n = f hd
      · rw [if_pos hn]; rfl
      · rwa [if_neg hn]

theorem nodup_keys_categoriesDict (st : RemState) :
    (dictKeys (categoriesDict st)).Nodup :=
  nodup_dictKeys_foldl_insert (fun c : RCategory => c.name) (fun c => c)
    st.categories [] (by simp [dictKeys])

theorem nodup_keys_oldCommentsDict (st : RemState) :
    (dictKeys (oldCommentsDict st)).Nodup := by
  unfold oldCommentsDict
  refine nodup_dictKeys_foldl _ ?_ st.categories [] (by simp [dictKeys])
  intro d c hd
  exact nodup_dictKeys_foldl_insert (fun cm : RComment => cm.name) (fun cm => cm)
    _ d hd

theorem nodup_keys_rubricCommentsDict (rubric : Rubric) :
    (dictKeys (rubricCommentsDict rubric)).Nodup := by
  unfold rubricCommentsDict
  refine nodup_dictKeys_foldl _ ?_ rubric [] (by simp [dictKeys])
  intro d p hd
  exact nodup_dictKeys_foldl_insert (fun c : CommentInfo => c.name) (fun c => c)
    _ d hd

theorem dictKeys_cc_eq_rc (rubric : Rubric) :
    dictKeys (commentCategoriesDict rubric) = dictKeys (rubricCommentsDict rubric) := by
  unfold commentCategoriesDict rubricCommentsDict
  refine dictKeys_foldl_congr _ _ ?_ rubric [] [] rfl
  intro d d' p hk
  exact dictKeys_foldl_congr _ _
    (fun d d' c hk2 => dictKeys_insert_congr d d' c.name p.1 c hk2) p.2.2 d d' hk

theorem commentCategories_val (rubric : Rubric) (n cn : PyVal)
    (h : dictGet (commentCategoriesDict rubric) n = some cn) :
    cn ∈ dictKeys rubric := by
  suffices hgen : ∀ (l : Rubric) (d : Dict PyVal PyVal) (n cn : PyVal),
      dictGet (l.foldl
        (fun d p => p.2.2.foldl (fun d c => dictInsert d c.name p.1) d) d) n = some cn →
      (∃ p ∈ l, cn = p.1) ∨ dictGet d n = some cn by
    rcases hgen rubric [] n cn h with ⟨p, hp, hv⟩ | h2
    · exact hv ▸ mem_dictKeys_of_mem hp
    · simp [dictGet] at h2
  intro l
  induction l with
  | nil => intro d n cn h; exact Or.inr h
  | cons hd tl ih =>
      intro d n cn h
      rcases ih _ n cn h with ⟨p, hp, hv⟩ | h2
      · exact Or.inl ⟨p, List.mem_cons_of_mem hd hp, hv⟩
      · rcases dictGet_foldl_insert_origin (fun c : CommentInfo => c.name)
          (fun _ => hd.1) hd.2.2 d n cn h2 with ⟨x, hx, hv⟩ | h3
        · exact Or.inl ⟨hd, List.mem_cons_self hd tl, hv⟩
        · exact Or.inr h3

theorem pruned_mem_sheet (st : RemState) (rubric : Rubric) :
    ∀ p ∈ prunedOldComments st rubric,
      (dictGet (rubricCommentsDict rubric) p.1).isSome = true := by
  intro p hp
  have hk : p.1 ∈ dictKeys (prunedOldComments st rubric) := mem_dictKeys_of_mem hp
  unfold prunedOldComments at hk
  rw [dictKeys_foldl_pop _ _ (nodup_keys_oldCommentsDict st)] at hk
  have hk2 := List.mem_filter.mp hk
  have hnotmiss : ¬ p.1 ∈ missingNames st rubric := by simpa using hk2.2
  have hmemold : p.1 ∈ existingNames st := hk2.1
  by_cases hs : p.1 ∈ sheetNames rubric
  · rw [dictGet_isSome_iff]
    exact hs
  · exact absurd (List.mem_filter.mpr ⟨hmemold, by simpa using hs⟩) hnotmiss

theorem exceptBind_ok {ε α β : Type} (a : α) (f : α → Except ε β) :
    (Except.ok a >>= f : Except ε β) = f a := rfl

theorem delFold_fst (l : List RComment) :
    ∀ acc : List Op × RemState,
      (l.foldl delCommentStep acc).1 =
        acc.1 ++ l.map (fun cm => Op.deleteComment cm.id cm.name) := by
  induction l with
  | nil => intro acc; simp
  | cons hd tl ih =>
      intro acc
      rw [List.foldl_cons, ih]
      simp [delCommentStep]

theorem cleanupStep_fst (a : List Op × RemState × Dict PyVal RCategory)
    (cname : PyVal) :
    ∃ δ, (cleanupStep a cname).1 = a.1 ++ δ ∧
      ∀ op ∈ δ, ∃ i n, op = Op.deleteCategory i n := by
  unfold cleanupStep
  cases hget : dictGet a.2.2 cname with
  | none => exact ⟨[], by simp, by simp⟩
  | some cat =>
      by_cases hz : (a.2.1.commentsOf cat.id).length = 0
      · refine ⟨[Op.deleteCategory cat.id cat.name], by simp [hz], ?_⟩
        intro op hop
        rw [List.mem_singleton] at hop
        exact ⟨cat.id, cat.name, hop⟩
      · exact ⟨[], by simp [hz], by simp⟩

theorem cleanupFold_fst (l : List PyVal) :
    ∀ acc : List Op × RemState × Dict PyVal RCategory,
      ∃ δ, (l.foldl cleanupStep acc).1 = acc.1 ++ δ ∧
        ∀ op ∈ δ, ∃ i n, op = Op.deleteCategory i n := by
  induction l with
  | nil => intro acc; exact ⟨[], by simp, by simp⟩
  | cons hd tl ih =>
      intro acc
      rcases cleanupStep_fst acc hd with ⟨δ0, h3, h4⟩
      rcases ih (cleanupStep acc hd) with ⟨δ, h1, h2⟩
      refine ⟨δ0 ++ δ, ?_, ?_⟩
      · rw [List.foldl_cons, h1, h3, List.append_assoc]
      · intro op hop
        rcases List.mem_append.mp hop with h | h
        · exact h4 op h
        · exact h2 op h

theorem dictGet_insert_isSome {α β : Type} [DecidableEq α] (d : Dict α β)
    (k k' : α) (v : β) :
    (dictGet (dictInsert d k v) k').isSome = true ↔
      k' = k ∨ (dictGet d k').isSome = true := by
  rw [dictGet_insert]
  by_cases h : k' = k <;> simp [h]

theorem createCatFold_ok (rubric : Rubric) (l : List PyVal) :
    ∀ acc : List Op × RemState × Dict PyVal RCategory,
      (∀ k ∈ l, k ∈ dictKeys rubric) →
      ∃ δ st' cats',
        l.foldlM (createCategoryStep rubric) acc = Except.ok (acc.1 ++ δ, st', cats') ∧
        δ.length = l.length ∧
        (∀ op ∈ δ, ∃ i n p, op = Op.createCategory i n p Option.none) ∧
        (∀ k, (dictGet cats' k).isSome = true ↔
          k ∈ l ∨ (dictGet acc.2.2 k).isSome = true) := by
  induction l with
  | nil =>
      intro acc _
      refine ⟨[], acc.2.1, acc.2.2, ?_, rfl, by simp, fun k => by simp⟩
      show Except.ok acc = _
      simp
  | cons hd tl ih =>
      intro acc hl
      obtain ⟨v, hv⟩ := Option.isSome_iff_exists.mp
        ((dictGet_isSome_iff rubric hd).mpr (hl hd (List.mem_cons_self hd tl)))
      obtain ⟨cat, s', hstep, hsk⟩ : ∃ (cat : RCategory) (s' : RemState),
          createCategoryStep rubric acc hd =
            Except.ok
              (acc.1 ++ [Op.createCategory cat.id cat.name cat.pointLimit cat.sortKey],
               s', dictInsert acc.2.2 hd cat) ∧ cat.sortKey = Option.none := by
        refine ⟨⟨acc.2.1.nextId, hd, v.1, Option.none⟩,
          (acc.2.1.addCategory hd v.1 Option.none).2, ?_, rfl⟩
        unfold createCategoryStep
        simp only [hv]
        rfl
      rcases ih
          (acc.1 ++ [Op.createCategory cat.id cat.name cat.pointLimit cat.sortKey],
           s', dictInsert acc.2.2 hd cat)
          (fun k hk => hl k (List.mem_cons_of_mem hd hk)) with
        ⟨δ, st', cats', h1, h2, h3, h4⟩
      refine ⟨Op.createCategory cat.id cat.name cat.pointLimit cat.sortKey :: δ,
        st', cats', ?_, by simp [h2], ?_, ?_⟩
      · rw [List.foldlM_cons, hstep, exceptBind_ok, h1]
        simp
      · intro op hop
        rcases List.mem_cons.mp hop with h | h
        · exact ⟨cat.id, cat.name, cat.pointLimit, by rw [h, hsk]⟩
        · exact h3 op h
      · intro k
        rw [h4 k, dictGet_insert_isSome, List.mem_cons]
        tauto

theorem updFold_ok (rc : Dict PyVal CommentInfo) (l : Dict PyVal RComment) :
    ∀ acc : List Op × RemState,
      (∀ p ∈ l, (dictGet rc p.1).isSome = true) →
      ∃ st', l.foldlM (updateCommentStep rc) acc =
        Except.ok (acc.1 ++ updOps rc l, st') := by
  induction l with
  | nil =>
      intro acc _
      refine ⟨acc.2, ?_⟩
      show Except.ok acc = _
      simp [updOps]
  | cons hd tl ih =>
      intro acc hl
      obtain ⟨info, hinfo⟩ := Option.isSome_iff_exists.mp
        (hl hd (List.mem_cons_self hd tl))
      have hstep : updateCommentStep rc acc hd =
          Except.ok (acc.1 ++ [Op.updateComment hd.2.id hd.2.category info],
            acc.2.updComment hd.2.id info) := by
        unfold updateCommentStep
        simp only [hinfo]
        rfl
      rcases ih _ (fun p hp => hl p (List.mem_cons_of_mem hd hp)) with ⟨st', h1⟩
      refine ⟨st', ?_⟩
      rw [List.foldlM_cons, hstep, exceptBind_ok, h1]
      simp [updOps, hinfo]

theorem updOps_length (rc : Dict PyVal CommentInfo) (l : Dict PyVal RComment)
    (h : ∀ p ∈ l, (dictGet rc p.1).isSome = true) :
    (updOps rc l).length = l.length := by
  induction l with
  | nil => rfl
  | cons hd tl ih =>
      obtain ⟨info, hinfo⟩ := Option.isSome_iff_exists.mp
        (h hd (List.mem_cons_self hd tl))
      have := ih (fun p hp => h p (List.mem_cons_of_mem hd hp))
      simp [updOps, hinfo] at this ⊢
      exact this

theorem updOps_shape (rc : Dict PyVal CommentInfo) (l : Dict PyVal RComment) :
    ∀ op ∈ updOps rc l, ∃ i c inf, op = Op.updateComment i c inf := by
  intro op hop
  unfold updOps at hop
  rcases List.mem_filterMap.mp hop with ⟨p, _, hf⟩
  rcases Option.map_eq_some'.mp hf with ⟨info, _, hg⟩
  exact ⟨p.2.id, p.2.category, info, hg.symm⟩

theorem createComFold_ok (cc : Dict PyVal PyVal) (rc : Dict PyVal CommentInfo)
    (cats : Dict PyVal RCategory) (l : List PyVal) :
    ∀ acc : List Op × RemState,
      (∀ n ∈ l, ∃ cn cat info, dictGet cc n = some cn ∧
        dictGet cats cn = some cat ∧ dictGet rc n = some info) →
      ∃ δ st', l.foldlM (createCommentStep cc rc cats) acc =
          Except.ok (acc.1 ++ δ, st') ∧
        δ.length = l.length ∧
        (∀ op ∈ δ, ∃ i c inf, op = Op.createComment i c inf) := by
  induction l with
  | nil =>
      intro acc _
      refine ⟨[], acc.2, ?_, rfl, by simp⟩
      show Except.ok acc = _
      simp
  | cons hd tl ih =>
      intro acc hl
      obtain ⟨cn, cat, info, h1, h2, h3⟩ := hl hd (List.mem_cons_self hd tl)
      have hstep : createCommentStep cc rc cats acc hd =
          Except.ok (acc.1 ++ [Op.createComment acc.2.nextId cat.id info],
            acc.2.addComment cat.id info) := by
        unfold createCommentStep
        simp only [h1, h2, h3]
        rfl
      rcases ih _ (fun n hn => hl n (List.mem_cons_of_mem hd hn)) with ⟨δ, st', h4, h5, h6⟩
      refine ⟨Op.createComment acc.2.nextId cat.id info :: δ, st', ?_, by simp [h5], ?_⟩
      · rw [List.foldlM_cons, hstep, exceptBind_ok, h4]
        simp
      · intro op hop
        rcases List.mem_cons.mp hop with h | h
        · exact ⟨acc.2.nextId, cat.id, info, h⟩
        · exact h6 op h

theorem run_decomp (st : RemState) (rubric : Rubric) (ov dm : Bool)
    (hguard : ¬ (st.numSubs > 0 ∧ ¬ ov = true)) :
    ∃ δ2 δ4 st',
      create_assignment_rubric st rubric ov dm =
        Except.ok
          ((phase1 st rubric dm).1 ++ δ2 ++
            updOps (rubricCommentsDict rubric) (prunedOldComments st rubric) ++ δ4,
           st') ∧
      δ2.length = ((dictKeys rubric).filter
        (fun n => decide (¬ n ∈ dictKeys (phase1 st rubric dm).2.2))).length ∧
      (∀ op ∈ δ2, ∃ i n p, op = Op.createCategory i n p Option.none) ∧
      δ4.length = (newNames st rubric).length ∧
      (∀ op ∈ δ4, ∃ i c inf, op = Op.createComment i c inf) := by
  have hl2 : ∀ k ∈ (dictKeys rubric).filter
      (fun n => decide (¬ n ∈ dictKeys (phase1 st rubric dm).2.2)),
      k ∈ dictKeys rubric := fun k hk => (List.mem_filter.mp hk).1
  obtain ⟨δ2, st2, cats2, h2ok, h2len, h2shape, h2cats⟩ :=
    createCatFold_ok rubric _ (phase1 st rubric dm) hl2
  obtain ⟨st3, h3ok⟩ :=
    updFold_ok (rubricCommentsDict rubric) (prunedOldComments st rubric)
      ((phase1 st rubric dm).1 ++ δ2, st2) (pruned_mem_sheet st rubric)
  have hl4 : ∀ n ∈ newNames st rubric,
      ∃ cn cat info, dictGet (commentCategoriesDict rubric) n = some cn ∧
        dictGet cats2 cn = some cat ∧
        dictGet (rubricCommentsDict rubric) n = some info := by
    intro n hn
    have hnsheet : n ∈ dictKeys (rubricCommentsDict rubric) := by
      have := (List.mem_filter.mp hn).1
      unfold sheetNames at this
      exact this
    have hccSome : (dictGet (commentCategoriesDict rubric) n).isSome = true := by
      rw [dictGet_isSome_iff, dictKeys_cc_eq_rc]
      exact hnsheet
    obtain ⟨cn, hcn⟩ := Option.isSome_iff_exists.mp hccSome
    have hcnrub : cn ∈ dictKeys rubric := commentCategories_val rubric n cn hcn
    have hcatSome : (dictGet cats2 cn).isSome = true := by
      rw [h2cats cn]
      by_cases hpre : (dictGet (phase1 st rubric dm).2.2 cn).isSome = true
      · exact Or.inr hpre
      · refine Or.inl (List.mem_filter.mpr ⟨hcnrub, ?_⟩)
        simp only [decide_eq_true_eq]
        intro hmem
        exact hpre ((dictGet_isSome_iff _ _).mpr hmem)
    obtain ⟨cat, hcat⟩ := Option.isSome_iff_exists.mp hcatSome
    obtain ⟨info, hinfo⟩ := Option.isSome_iff_exists.mp
      ((dictGet_isSome_iff _ _).mpr hnsheet)
    exact ⟨cn, cat, info, hcn, hcat, hinfo⟩
  obtain ⟨δ4, st4, h4ok, h4len, h4shape⟩ :=
    createComFold_ok (commentCategoriesDict rubric) (rubricCommentsDict rubric)
      cats2 (newNames st rubric)
      ((phase1 st rubric dm).1 ++ δ2 ++
        updOps (rubricCommentsDict rubric) (prunedOldComments st rubric), st3)
      hl4
  refine ⟨δ2, δ4, st4, ?_, h2len, h2shape, h4len, h4shape⟩
  unfold create_assignment_rubric
  rw [if_neg hguard]
  have hp2 : phase2 rubric (phase1 st rubric dm) =
      Except.ok ((phase1 st rubric dm).1 ++ δ2, st2, cats2) := by
    unfold phase2
    exact h2ok
  have hp3 : phase3 st rubric ((phase1 st rubric dm).1 ++ δ2, st2) =
      Except.ok ((phase1 st rubric dm).1 ++ δ2 ++
        updOps (rubricCommentsDict rubric) (prunedOldComments st rubric), st3) := by
    unfold phase3
    exact h3ok
  have hp4 : phase4 st rubric cats2
      ((phase1 st rubric dm).1 ++ δ2 ++
        updOps (rubricCommentsDict rubric) (prunedOldComments st rubric), st3) =
      Except.ok ((phase1 st rubric dm).1 ++ δ2 ++
        updOps (rubricCommentsDict rubric) (prunedOldComments st rubric) ++ δ4,
        st4) := by
    unfold phase4
    exact h4ok
  show (phase2 rubric (phase1 st rubric dm) >>= fun a2 =>
      phase3 st rubric (a2.1, a2.2.1) >>= fun a3 =>
      phase4 st rubric a2.2.2 a3 >>= fun a4 => pure a4) = _
  simp only [hp2, exceptBind_ok, hp3, hp4]
  rfl

theorem filter_eq_nil_of {α : Type} (p : α → Bool) (l : List α)
    (h : ∀ a ∈ l, p a = false) : l.filter p = [] := by
  induction l with
  | nil => rfl
  | cons hd tl ih =>
      rw [List.filter_cons, h hd (List.mem_cons_self hd tl)]
      simp only [Bool.false_eq_true, if_false]
      exact ih (fun a ha => h a (List.mem_cons_of_mem hd ha))

/-- C1 as amended: a run of incremental reconciliation against a remote
rubric whose comment-name set equals the target's and whose categories
cover the target's (in particular, a second run against an
already-matching remote) emits no delete and no create operation, but not
an empty plan: the plan is exactly one update per existing comment. -/
theorem C1_second_run_updates_only (st : RemState) (rubric : Rubric)
    (ov dm : Bool)
    (hguard : ¬ (st.numSubs > 0 ∧ ¬ ov = true))
    (h1 : ∀ n ∈ existingNames st, n ∈ sheetNames rubric)
    (h2 : ∀ n ∈ sheetNames rubric, n ∈ existingNames st)
    (h3 : ∀ k ∈ dictKeys rubric, k ∈ dictKeys (categoriesDict st)) :
    ∃ st', create_assignment_rubric st rubric ov dm =
        Except.ok (updOps (rubricCommentsDict rubric) (oldCommentsDict st), st') ∧
      (∀ op ∈ updOps (rubricCommentsDict rubric) (oldCommentsDict st),
        ∃ i c inf, op = Op.updateComment i c inf) ∧
      (updOps (rubricCommentsDict rubric) (oldCommentsDict st)).length =
        (oldCommentsDict st).length := by
  have hmiss : missingNames st rubric = [] := by
    unfold missingNames
    apply filter_eq_nil_of
    intro n hn
    simpa using h1 n hn
  have hmc : missingComments st rubric = [] := by
    unfold missingComments
    rw [hmiss]
    rfl
  have hpruned : prunedOldComments st rubric = oldCommentsDict st := by
    unfold prunedOldComments
    rw [hmiss]
    rfl
  have hphase1 : phase1 st rubric dm = ([], st, categoriesDict st) := by
    unfold phase1
    rw [hmc]
    simp
  obtain ⟨δ2, δ4, st', hok, hlen2, _, hlen4, _⟩ := run_decomp st rubric ov dm hguard
  have hfilter : (dictKeys rubric).filter
      (fun n => decide (¬ n ∈ dictKeys (phase1 st rubric dm).2.2)) = [] := by
    rw [hphase1]
    apply filter_eq_nil_of
    intro k hk
    simpa using h3 k hk
  have hδ2 : δ2 = [] := by
    have : δ2.length = 0 := by rw [hlen2, hfilter]; rfl
    simpa using this
  have hnew : newNames st rubric = [] := by
    unfold newNames
    apply filter_eq_nil_of
    intro n hn
    simpa using h2 n hn
  have hδ4 : δ4 = [] := by
    have : δ4.length = 0 := by rw [hlen4, hnew]; rfl
    simpa using this
  rw [hδ2, hδ4, hphase1, hpruned] at hok
  simp only [List.append_nil, List.nil_append] at hok
  refine ⟨st', hok, updOps_shape _ _, ?_⟩
  apply updOps_length
  intro p hp
  rw [dictGet_isSome_iff]
  exact h1 p.1 (mem_dictKeys_of_mem hp)

/-- Witness for C1 at the concrete matching state `stIdem` / `rubIdem`. -/
theorem C1_second_run_updates_only_witness :
    ∃ st', create_assignment_rubric stIdem rubIdem false true =
        Except.ok (updOps (rubricCommentsDict rubIdem) (oldCommentsDict stIdem), st') ∧
      (∀ op ∈ updOps (rubricCommentsDict rubIdem) (oldCommentsDict stIdem),
        ∃ i c inf, op = Op.updateComment i c inf) ∧
      (updOps (rubricCommentsDict rubIdem) (oldCommentsDict stIdem)).length =
        (oldCommentsDict stIdem).length :=
  C1_second_run_updates_only stIdem rubIdem false true (by decide) (by decide)
    (by decide) (by decide)

theorem dictGet_mem {α β : Type} [DecidableEq α] (d : Dict α β) (k : α) (v : β)
    (h : dictGet d k = some v) : (k, v) ∈ d := by
  induction d with
  | nil => simp [dictGet] at h
  | cons hd tl ih =>
      obtain ⟨a, b⟩ := hd
      by_cases hk : a = k
      · subst hk
        have hv : b = v := by simpa [dictGet] using h
        subst hv
        exact List.mem_cons_self (a, b) tl
      · simp only [dictGet, if_neg hk] at h
        exact List.mem_cons_of_mem (a, b) (ih h)

theorem nodup_map_inj {α β : Type} {f : α → β} {l : List α}
    (h : (l.map f).Nodup) :
    ∀ a ∈ l, ∀ b ∈ l, f a = f b → a = b := by
  induction l with
  | nil => intro a ha; simp at ha
  | cons hd tl ih =>
      rw [List.map_cons, List.nodup_cons] at h
      obtain ⟨hh, ht⟩ := h
      intro a ha b hb hf
      rcases List.mem_cons.mp ha with rfl | ha' <;>
        rcases List.mem_cons.mp hb with rfl | hb'
      · rfl
      · exact absurd (hf ▸ List.mem_map_of_mem f hb') hh
      · exact absurd (hf ▸ List.mem_map_of_mem f ha') hh
      · exact ih ht a ha' b hb' hf

theorem phase1_fst_shape (st : RemState) (rubric : Rubric) (dm : Bool) :
    ∀ op ∈ (phase1 st rubric dm).1,
      (∃ i n, op = Op.deleteComment i n) ∨ (∃ i n, op = Op.deleteCategory i n) := by
  unfold phase1
  by_cases hc : (missingComments st rubric).length > 0 ∧ dm = true
  · rw [if_pos hc]
    rcases cleanupFold_fst (dictKeys (categoriesDict st))
        (((missingComments st rubric).foldl delCommentStep ([], st)).1,
         ((missingComments st rubric).foldl delCommentStep ([], st)).2,
         categoriesDict st) with ⟨δ, h1, h2⟩
    intro op hop
    rw [h1] at hop
    rcases List.mem_append.mp hop with h | h
    · rw [delFold_fst] at h
      simp only [List.nil_append] at h
      rcases List.mem_map.mp h with ⟨cm, _, hcm⟩
      exact Or.inl ⟨cm.id, cm.name, hcm.symm⟩
    · exact Or.inr (h2 op h)
  · rw [if_neg hc]
    intro op hop
    simp at hop

/-- C9: for every comment name present in both the observed and the target
sets, the incremental plan contains the update operation carrying the
observed comment's remote id and category binding together with the
target's content fields; and every update of that comment in the plan
keeps that binding and those fields — the category binding is never
changed, whatever category the target tree uses for the name. -/
theorem C9_update_keeps_binding (st : RemState) (rubric : Rubric)
    (ov dm : Bool) (name : PyVal) (cm : RComment) (info : CommentInfo)
    (hguard : ¬ (st.numSubs > 0 ∧ ¬ ov = true))
    (hcm : dictGet (oldCommentsDict st) name = some cm)
    (hinfo : dictGet (rubricCommentsDict rubric) name = some info)
    (hids : ((oldCommentsDict st).map (fun p => p.2.id)).Nodup) :
    ∃ plan st', create_assignment_rubric st rubric ov dm = Except.ok (plan, st') ∧
      Op.updateComment cm.id cm.category info ∈ plan ∧
      ∀ c inf, Op.updateComment cm.id c inf ∈ plan →
        c = cm.category ∧ inf = info := by
  obtain ⟨δ2, δ4, st', hok, _, h2shape, _, h4shape⟩ :=
    run_decomp st rubric ov dm hguard
  have hsheet : name ∈ sheetNames rubric := by
    have : (dictGet (rubricCommentsDict rubric) name).isSome = true := by
      rw [hinfo]; rfl
    rw [dictGet_isSome_iff] at this
    exact this
  have hnotmiss : ¬ name ∈ missingNames st rubric := by
    unfold missingNames
    intro hmem
    have := (List.mem_filter.mp hmem).2
    simp only [decide_eq_true_eq] at this
    exact this hsheet
  have hprget : dictGet (prunedOldComments st rubric) name = some cm := by
    unfold prunedOldComments
    rw [dictGet_foldl_pop _ _ _ hnotmiss]
    exact hcm
  have hprmem : (name, cm) ∈ prunedOldComments st rubric :=
    dictGet_mem _ _ _ hprget
  have hupdmem : Op.updateComment cm.id cm.category info ∈
      updOps (rubricCommentsDict rubric) (prunedOldComments st rubric) := by
    unfold updOps
    refine List.mem_filterMap.mpr ⟨(name, cm), hprmem, ?_⟩
    rw [hinfo]
    rfl
  refine ⟨_, st', hok, ?_, ?_⟩
  · exact List.mem_append.mpr (Or.inl (List.mem_append.mpr (Or.inr hupdmem)))
  · intro c inf hmem
    rcases List.mem_append.mp hmem with hmem | hmem4
    rotate_left
    · rcases h4shape _ hmem4 with ⟨i, cc, inf', h⟩
      simp at h
    rcases List.mem_append.mp hmem with hmem | hmemU
    rotate_left
    · -- the update segment
      unfold updOps at hmemU
      rcases List.mem_filterMap.mp hmemU with ⟨p, hp, hf⟩
      rcases Option.map_eq_some'.mp hf with ⟨info', hget', hop⟩
      have hpid : p.2.id = cm.id := by
        have := hop
        simp only [Op.updateComment.injEq] at this
        exact this.1
      have hpold : p ∈ oldCommentsDict st := by
        have hsub : List.Sublist (prunedOldComments st rubric) (oldCommentsDict st) := by
          unfold prunedOldComments
          exact foldl_pop_sublist _ _
        exact hsub.subset hp
      have hnamecm : ((name, cm) : PyVal × RComment) ∈ oldCommentsDict st :=
        dictGet_mem _ _ _ hcm
      have hpeq : p = (name, cm) :=
        nodup_map_inj hids p hpold (name, cm) hnamecm (by simpa using hpid)
      subst hpeq
      rw [hinfo] at hget'
      simp only [Option.some.injEq] at hget'
      subst hget'
      have := hop
      simp only [Op.updateComment.injEq] at this
      exact ⟨this.2.1.symm, this.2.2.symm⟩
    rcases List.mem_append.mp hmem with hmem1 | hmem2
    · rcases phase1_fst_shape st rubric dm _ hmem1 with ⟨i, n, h⟩ | ⟨i, n, h⟩ <;>
        simp at h
    · rcases h2shape _ hmem2 with ⟨i, n, p, h⟩
      simp at h

/-- Witness for C9: comment `B` sits in category 1 both remotely and in
the target; the plan's update keeps id 2 and category 1. -/
theorem C9_update_keeps_binding_witness :
    ∃ plan st', create_assignment_rubric stIdem rubIdem false true =
        Except.ok (plan, st') ∧
      Op.updateComment 2 1 infoB ∈ plan ∧
      ∀ c inf, Op.updateComment 2 c inf ∈ plan → c = 1 ∧ inf = infoB := by
  have h := C9_update_keeps_binding stIdem rubIdem false true (.str "B")
    (mkRC 2 "B" "tb" (-2) 1) infoB (by decide) (by decide) (by decide) (by decide)
  exact h

theorem commentsOf_delCategory (s : RemState) (i j : Nat) (h : ¬ j = i) :
    (s.delCategory i).commentsOf j = s.commentsOf j := by
  unfold RemState.delCategory RemState.commentsOf
  simp only [List.filter_filter]
  apply List.filter_congr
  intro c _
  by_cases hcj : c.category = j
  · simp [hcj, h]
  · simp [hcj]

theorem dictInsert_not_mem {α β : Type} [DecidableEq α] (d : Dict α β) (k : α)
    (v : β) (h : ¬ k ∈ dictKeys d) : dictInsert d k v = d ++ [(k, v)] := by
  induction d with
  | nil => rfl
  | cons hd tl ih =>
      obtain ⟨a, b⟩ := hd
      have hak : ¬ a = k := fun hh => h (by simp [dictKeys, hh])
      have htl : ¬ k ∈ dictKeys tl := by
        intro hh
        exact h (by simp [dictKeys] at hh ⊢; exact Or.inr hh)
      simp [dictInsert, hak, ih htl]

theorem categoriesDict_eq (st : RemState)
    (h : (st.categories.map (fun c => c.name)).Nodup) :
    categoriesDict st = st.categories.map (fun c => (c.name, c)) := by
  unfold categoriesDict
  suffices hgen : ∀ (l : List RCategory) (d : Dict PyVal RCategory),
      (l.map (fun c => c.name)).Nodup →
      (∀ c ∈ l, ¬ c.name ∈ dictKeys d) →
      l.foldl (fun d c => dictInsert d c.name c) d =
        d ++ l.map (fun c => (c.name, c)) by
    simpa using hgen st.categories [] h (by simp [dictKeys])
  intro l
  induction l with
  | nil => intro d _ _; simp
  | cons hd tl ih =>
      intro d hn hf
      rw [List.map_cons, List.nodup_cons] at hn
      have hcond : ∀ c ∈ tl, ¬ c.name ∈ dictKeys (d ++ [(hd.name, hd)]) := by
        intro c hc hmem
        rw [show dictKeys (d ++ [(hd.name, hd)]) = dictKeys d ++ [hd.name] from
          by simp [dictKeys]] at hmem
        rcases List.mem_append.mp hmem with h1 | h1
        · exact hf c (List.mem_cons_of_mem hd hc) h1
        · rw [List.mem_singleton] at h1
          exact hn.1 (h1 ▸ List.mem_map_of_mem (fun c => c.name) hc)
      rw [List.foldl_cons,
        dictInsert_not_mem d hd.name hd (hf hd (List.mem_cons_self hd tl)),
        ih (d ++ [(hd.name, hd)]) hn.2 hcond]
      simp

theorem categoriesDict_get (st : RemState)
    (h : (st.categories.map (fun c => c.name)).Nodup) :
    ∀ c ∈ st.categories, dictGet (categoriesDict st) c.name = some c := by
  rw [categoriesDict_eq st h]
  suffices hgen : ∀ l : List RCategory, (l.map (fun c => c.name)).Nodup →
      ∀ c ∈ l, dictGet (l.map (fun c => (c.name, c))) c.name = some c from
    hgen st.categories h
  intro l
  induction l with
  | nil => intro _ c hc; simp at hc
  | cons hd tl ih =>
      intro hn c hc
      rw [List.map_cons, List.nodup_cons] at hn
      rcases List.mem_cons.mp hc with rfl | hc'
      · simp [dictGet]
      · have hne : ¬ hd.name = c.name := by
          intro hh
          exact hn.1 (hh ▸ List.mem_map_of_mem (fun c => c.name) hc')
        simp only [List.map_cons, dictGet, if_neg hne]
        exact ih hn.2 c hc'

theorem cleanup_spec (stA : RemState) (cats0 : Dict PyVal RCategory) :
    ∀ (l : List PyVal) (acc : List Op × RemState × Dict PyVal RCategory),
      l.Nodup →
      (∀ k ∈ l, dictGet acc.2.2 k = dictGet cats0 k) →
      (∀ k ∈ l, ∀ c, dictGet cats0 k = some c →
        acc.2.1.commentsOf c.id = stA.commentsOf c.id) →
      (∀ k1 ∈ l, ∀ k2 ∈ l, ∀ c1 c2, dictGet cats0 k1 = some c1 →
        dictGet cats0 k2 = some c2 → c1.id = c2.id → k1 = k2) →
      (∀ op ∈ (l.foldl cleanupStep acc).1,
        op ∈ acc.1 ∨ ∃ k ∈ l, ∃ c, dictGet cats0 k = some c ∧
          op = Op.deleteCategory c.id c.name ∧ stA.commentsOf c.id = []) ∧
      (∀ k ∈ l, ∀ c, dictGet cats0 k = some c → stA.commentsOf c.id = [] →
        Op.deleteCategory c.id c.name ∈ (l.foldl cleanupStep acc).1) := by
  intro l
  induction l with
  | nil =>
      intro acc _ _ _ _
      exact ⟨fun op hop => Or.inl hop, fun k hk => absurd hk (by simp)⟩
  | cons hd tl ih =>
      intro acc hnd hdict hstate hinj
      rw [List.nodup_cons] at hnd
      obtain ⟨hhd, htl⟩ := hnd
      have hdhd : dictGet acc.2.2 hd = dictGet cats0 hd :=
        hdict hd (List.mem_cons_self hd tl)
      cases hget : dictGet cats0 hd with
      | none =>
          have hstep : cleanupStep acc hd = acc := by
            unfold cleanupStep
            rw [hdhd, hget]
          rw [List.foldl_cons, hstep]
          have hres := ih acc htl
            (fun k hk => hdict k (List.mem_cons_of_mem hd hk))
            (fun k hk => hstate k (List.mem_cons_of_mem hd hk))
            (fun k1 hk1 k2 hk2 => hinj k1 (List.mem_cons_of_mem hd hk1) k2
              (List.mem_cons_of_mem hd hk2))
          refine ⟨?_, ?_⟩
          · intro op hop
            rcases hres.1 op hop with h | ⟨k, hk, c, h1, h2, h3⟩
            · exact Or.inl h
            · exact Or.inr ⟨k, List.mem_cons_of_mem hd hk, c, h1, h2, h3⟩
          · intro k hk c hc hempty
            rcases List.mem_cons.mp hk with rfl | hk'
            · rw [hget] at hc
              exact absurd hc (by simp)
            · exact hres.2 k hk' c hc hempty
      | some chd =>
          have hagree : acc.2.1.commentsOf chd.id = stA.commentsOf chd.id :=
            hstate hd (List.mem_cons_self hd tl) chd hget
          by_cases hz : (acc.2.1.commentsOf chd.id).length = 0
          · have hempty : stA.commentsOf chd.id = [] := by
              rw [← hagree]
              exact List.eq_nil_of_length_eq_zero hz
            have hstep : cleanupStep acc hd =
                (acc.1 ++ [Op.deleteCategory chd.id chd.name],
                 acc.2.1.delCategory chd.id, dictPop acc.2.2 hd) := by
              unfold cleanupStep
              rw [hdhd, hget]
              simp [hz]
            rw [List.foldl_cons, hstep]
            have hdict2 : ∀ k ∈ tl, dictGet (dictPop acc.2.2 hd) k = dictGet cats0 k := by
              intro k hk
              rw [dictGet_pop_ne acc.2.2 hd k (fun h => hhd (h ▸ hk))]
              exact hdict k (List.mem_cons_of_mem hd hk)
            have hstate2 : ∀ k ∈ tl, ∀ c, dictGet cats0 k = some c →
                (acc.2.1.delCategory chd.id).commentsOf c.id = stA.commentsOf c.id := by
              intro k hk c hc
              have hne : ¬ c.id = chd.id := by
                intro hid
                exact hhd (hinj k (List.mem_cons_of_mem hd hk) hd
                  (List.mem_cons_self hd tl) c chd hc hget hid ▸ hk)
              rw [commentsOf_delCategory _ _ _ hne]
              exact hstate k (List.mem_cons_of_mem hd hk) c hc
            have hres := ih
              (acc.1 ++ [Op.deleteCategory chd.id chd.name],
               acc.2.1.delCategory chd.id, dictPop acc.2.2 hd) htl hdict2 hstate2
              (fun k1 hk1 k2 hk2 => hinj k1 (List.mem_cons_of_mem hd hk1) k2
                (List.mem_cons_of_mem hd hk2))
            refine ⟨?_, ?_⟩
            · intro op hop
              rcases hres.1 op hop with h | ⟨k, hk, c, h1, h2, h3⟩
              · rcases List.mem_append.mp h with h' | h'
                · exact Or.inl h'
                · rw [List.mem_singleton] at h'
                  exact Or.inr ⟨hd, List.mem_cons_self hd tl, chd, hget, h', hempty⟩
              · exact Or.inr ⟨k, List.mem_cons_of_mem hd hk, c, h1, h2, h3⟩
            · intro k hk c hc he
              rcases List.mem_cons.mp hk with hkhd | hk'
              · have hceq : chd = c := by
                  rw [hkhd, hget] at hc
                  exact Option.some.inj hc
                subst hceq
                rcases cleanupFold_fst tl
                  (acc.1 ++ [Op.deleteCategory chd.id chd.name],
                   acc.2.1.delCategory chd.id, dictPop acc.2.2 hd) with ⟨δ, hδ1, _⟩
                rw [hδ1]
                exact List.mem_append.mpr (Or.inl (List.mem_append.mpr
                  (Or.inr (List.mem_singleton.mpr rfl))))
              · exact hres.2 k hk' c hc he
          · have hstep : cleanupStep acc hd = acc := by
              unfold cleanupStep
              rw [hdhd, hget]
              simp [hz]
            have hne : ¬ stA.commentsOf chd.id = [] := by
              intro h
              apply hz
              rw [hagree, h]
              rfl
            rw [List.foldl_cons, hstep]
            have hres := ih acc htl
              (fun k hk => hdict k (List.mem_cons_of_mem hd hk))
              (fun k hk => hstate k (List.mem_cons_of_mem hd hk))
              (fun k1 hk1 k2 hk2 => hinj k1 (List.mem_cons_of_mem hd hk1) k2
                (List.mem_cons_of_mem hd hk2))
            refine ⟨?_, ?_⟩
            · intro op hop
              rcases hres.1 op hop with h | ⟨k, hk, c, h1, h2, h3⟩
              · exact Or.inl h
              · exact Or.inr ⟨k, List.mem_cons_of_mem hd hk, c, h1, h2, h3⟩
            · intro k hk c hc he
              rcases List.mem_cons.mp hk with rfl | hk'
              · have hceq : chd = c := by
                  rw [hget] at hc
                  exact Option.some.inj hc
                exact absurd (hceq ▸ he) hne
              · exact hres.2 k hk' c hc he

/-- C2 as amended: with `deleteMissing = true`, a category of the observed
state is deleted if and only if at least one comment was missing (so the
deletion block ran) and the category's comment set right after this run's
comment deletions is empty — whether it was emptied by those deletions or
was already empty before the run.  In particular a category still holding
comments after the deletions is never deleted, and nothing is deleted when
no comment is missing. -/
theorem C2_cascade (st : RemState) (rubric : Rubric) (ov : Bool)
    (hguard : ¬ (st.numSubs > 0 ∧ ¬ ov = true))
    (hnames : (st.categories.map (fun c => c.name)).Nodup)
    (hids : (st.categories.map (fun c => c.id)).Nodup) :
    ∃ plan st',
      create_assignment_rubric st rubric ov true = Except.ok (plan, st') ∧
      ∀ cat ∈ st.categories,
        (Op.deleteCategory cat.id cat.name ∈ plan ↔
          ¬ missingComments st rubric = [] ∧
            (afterDeleteState st rubric).commentsOf cat.id = []) := by
  obtain ⟨δ2, δ4, st', hok, _, h2shape, _, h4shape⟩ :=
    run_decomp st rubric ov true hguard
  refine ⟨_, st', hok, ?_⟩
  intro cat hcat
  have hnot2 : ¬ Op.deleteCategory cat.id cat.name ∈ δ2 := by
    intro h
    rcases h2shape _ h with ⟨i, n, p, hh⟩
    simp at hh
  have hnotU : ¬ Op.deleteCategory cat.id cat.name ∈
      updOps (rubricCommentsDict rubric) (prunedOldComments st rubric) := by
    intro h
    rcases updOps_shape _ _ _ h with ⟨i, c, inf, hh⟩
    simp at hh
  have hnot4 : ¬ Op.deleteCategory cat.id cat.name ∈ δ4 := by
    intro h
    rcases h4shape _ h with ⟨i, c, inf, hh⟩
    simp at hh
  have hmemiff : Op.deleteCategory cat.id cat.name ∈
      ((phase1 st rubric true).1 ++ δ2 ++
        updOps (rubricCommentsDict rubric) (prunedOldComments st rubric) ++ δ4) ↔
      Op.deleteCategory cat.id cat.name ∈ (phase1 st rubric true).1 := by
    constructor
    · intro h
      rcases List.mem_append.mp h with h | h
      · rcases List.mem_append.mp h with h | h
        · rcases List.mem_append.mp h with h | h
          · exact h
          · exact absurd h hnot2
        · exact absurd h hnotU
      · exact absurd h hnot4
    · intro h
      exact List.mem_append.mpr (Or.inl (List.mem_append.mpr (Or.inl
        (List.mem_append.mpr (Or.inl h)))))
  rw [hmemiff]
  by_cases hm : missingComments st rubric = []
  · have hcond : ¬ ((missingComments st rubric).length > 0 ∧ (true : Bool) = true) := by
      rw [hm]
      simp
    have hp1 : (phase1 st rubric true).1 = [] := by
      unfold phase1
      rw [if_neg hcond]
    rw [hp1]
    simp [hm]
  · have hlen : (missingComments st rubric).length > 0 :=
      List.length_pos.mpr hm
    have hp1 : phase1 st rubric true =
        (dictKeys (categoriesDict st)).foldl cleanupStep
          (((missingComments st rubric).foldl delCommentStep ([], st)).1,
           ((missingComments st rubric).foldl delCommentStep ([], st)).2,
           categoriesDict st) := by
      unfold phase1
      rw [if_pos ⟨hlen, rfl⟩]
    have hinj : ∀ k1 ∈ dictKeys (categoriesDict st),
        ∀ k2 ∈ dictKeys (categoriesDict st), ∀ c1 c2,
        dictGet (categoriesDict st) k1 = some c1 →
        dictGet (categoriesDict st) k2 = some c2 → c1.id = c2.id → k1 = k2 := by
      intro k1 _ k2 _ c1 c2 h1 h2 hid
      have hm1 := dictGet_mem _ _ _ h1
      have hm2 := dictGet_mem _ _ _ h2
      rw [categoriesDict_eq st hnames] at hm1 hm2
      rcases List.mem_map.mp hm1 with ⟨a1, ha1, hp1'⟩
      rcases List.mem_map.mp hm2 with ⟨a2, ha2, hp2'⟩
      have e1a : a1 = c1 := congrArg Prod.snd hp1'
      have e1b : a1.name = k1 := congrArg Prod.fst hp1'
      have e2a : a2 = c2 := congrArg Prod.snd hp2'
      have e2b : a2.name = k2 := congrArg Prod.fst hp2'
      have hc12 : c1 = c2 :=
        nodup_map_inj hids c1 (e1a ▸ ha1) c2 (e2a ▸ ha2) hid
      rw [← e1b, ← e2b, e1a, e2a, hc12]
    have hspec := cleanup_spec (afterDeleteState st rubric) (categoriesDict st)
      (dictKeys (categoriesDict st))
      (((missingComments st rubric).foldl delCommentStep ([], st)).1,
       ((missingComments st rubric).foldl delCommentStep ([], st)).2,
       categoriesDict st)
      (nodup_keys_categoriesDict st) (fun k _ => rfl) (fun k _ c _ => rfl) hinj
    constructor
    · intro hmem
      rw [hp1] at hmem
      rcases hspec.1 _ hmem with h | ⟨k, hk, c, h1, h2, h3⟩
      · rw [delFold_fst] at h
        simp only [List.nil_append] at h
        rcases List.mem_map.mp h with ⟨cm, _, hcm⟩
        simp at hcm
      · refine ⟨hm, ?_⟩
        simp only [Op.deleteCategory.injEq] at h2
        rw [h2.1]
        exact h3
    · rintro ⟨_, hemp⟩
      rw [hp1]
      have hget := categoriesDict_get st hnames cat hcat
      have hmemk : cat.name ∈ dictKeys (categoriesDict st) :=
        (dictGet_isSome_iff _ _).mp (by rw [hget]; rfl)
      exact hspec.2 cat.name hmemk cat hget hemp

/-- Witness for C2 at the cascade scenario: with target `{}` and
`deleteMissing = true`, both `X` (empty before the run) and `Y` (emptied
by the run) satisfy the amended condition and are deleted. -/
theorem C2_cascade_witness :
    ∃ plan st',
      create_assignment_rubric stCascade [] false true = Except.ok (plan, st') ∧
      ∀ cat ∈ stCascade.categories,
        (Op.deleteCategory cat.id cat.name ∈ plan ↔
          ¬ missingComments stCascade [] = [] ∧
            (afterDeleteState stCascade []).commentsOf cat.id = []) :=
  C2_cascade stCascade [] false (by decide) (by decide) (by decide)

theorem getAll_fold_spec :
    ∀ (sheets : List WSheet) (acc : Dict Int Rubric) (ids : List Int)
      (res : Dict Int Rubric × List Int),
      (∀ i ∈ ids, ¬ i ∈ dictKeys acc) →
      (dictKeys acc).Nodup →
      sheets.foldlM sheetStep (acc, ids) = Except.ok res →
      (dictKeys res.1).Nodup ∧
      ∀ a_id rub, dictGet res.1 a_id = some rub →
        dictGet acc a_id = some rub ∨
        (¬ a_id ∈ dictKeys acc ∧ a_id ∈ ids ∧
          ∃ ws, (sheets.filter
              (fun w => decide (toIntPy w.a1 = some a_id))).head? = some ws ∧
            get_assignment_rubric ws.rows = Except.ok rub) := by
  intro sheets
  induction sheets with
  | nil =>
      intro acc ids res hinv hnd hok
      have hres : res = (acc, ids) := (Except.ok.inj hok).symm
      subst hres
      exact ⟨hnd, fun a_id rub h => Or.inl h⟩
  | cons ws rest ih =>
      intro acc ids res hinv hnd hok
      rw [List.foldlM_cons] at hok
      cases hparse : toIntPy ws.a1 with
      | none =>
          have hstep : sheetStep (acc, ids) ws = Except.ok (acc, ids) := by
            unfold sheetStep
            rw [hparse]
            rfl
          rw [hstep, exceptBind_ok] at hok
          obtain ⟨hnd', hchar⟩ := ih acc ids res hinv hnd hok
          refine ⟨hnd', ?_⟩
          intro a_id rub hget
          rcases hchar a_id rub hget with h | ⟨h1, h2, ws', hws', hr'⟩
          · exact Or.inl h
          · refine Or.inr ⟨h1, h2, ws', ?_, hr'⟩
            rw [List.filter_cons, if_neg (by simp [hparse])]
            exact hws'
      | some j =>
          by_cases hj : j ∈ ids
          · cases hr : get_assignment_rubric ws.rows with
            | error e =>
                have hstep : sheetStep (acc, ids) ws = Except.error e := by
                  unfold sheetStep
                  rw [hparse]
                  simp only [hj, if_true, hr]
                  rfl
                rw [hstep] at hok
                simp [Bind.bind, Except.bind] at hok
            | ok r =>
                have hstep : sheetStep (acc, ids) ws =
                    Except.ok (dictInsert acc j r,
                      ids.filter (fun x => decide (¬ x = j))) := by
                  unfold sheetStep
                  rw [hparse]
                  simp only [hj, if_true, hr]
                  rfl
                rw [hstep, exceptBind_ok] at hok
                have hjacc : ¬ j ∈ dictKeys acc := hinv j hj
                have hkeys : dictKeys (dictInsert acc j r) = dictKeys acc ++ [j] := by
                  rw [dictKeys_insert, if_neg hjacc]
                have hinv' : ∀ i ∈ ids.filter (fun x => decide (¬ x = j)),
                    ¬ i ∈ dictKeys (dictInsert acc j r) := by
                  intro i hi hmem
                  have hi2 := List.mem_filter.mp hi
                  have hij : ¬ i = j := by simpa using hi2.2
                  rw [hkeys] at hmem
                  rcases List.mem_append.mp hmem with h | h
                  · exact hinv i hi2.1 h
                  · rw [List.mem_singleton] at h
                    exact hij h
                have hnd' : (dictKeys (dictInsert acc j r)).Nodup := by
                  rw [hkeys]
                  exact List.Nodup.append hnd (List.nodup_singleton j)
                    (by simpa [List.disjoint_singleton] using hjacc)
                obtain ⟨hndres, hchar⟩ := ih _ _ res hinv' hnd' hok
                refine ⟨hndres, ?_⟩
                intro a_id rub hget
                rcases hchar a_id rub hget with h | ⟨h1, h2, ws', hws', hr'⟩
                · rw [dictGet_insert] at h
                  by_cases haj : a_id = j
                  · rw [if_pos haj] at h
                    have hrubr : r = rub := Option.some.inj h
                    refine Or.inr ⟨haj ▸ hjacc, haj ▸ hj, ws, ?_, hrubr ▸ hr⟩
                    rw [List.filter_cons,
                      if_pos (by simp [hparse, haj])]
                    rfl
                  · rw [if_neg haj] at h
                    exact Or.inl h
                · have h2f := List.mem_filter.mp h2
                  have haj : ¬ a_id = j := by simpa using h2f.2
                  have h1' : ¬ a_id ∈ dictKeys acc := by
                    intro hmem
                    exact h1 (by rw [hkeys]; exact List.mem_append.mpr (Or.inl hmem))
                  refine Or.inr ⟨h1', h2f.1, ws', ?_, hr'⟩
                  rw [List.filter_cons, if_neg (by simp [hparse]; exact fun h => haj h.symm)]
                  exact hws'
          · have hstep : sheetStep (acc, ids) ws = Except.ok (acc, ids) := by
              unfold sheetStep
              rw [hparse]
              simp only [hj, if_false]
              rfl
            rw [hstep, exceptBind_ok] at hok
            obtain ⟨hnd', hchar⟩ := ih acc ids res hinv hnd hok
            refine ⟨hnd', ?_⟩
            intro a_id rub hget
            rcases hchar a_id rub hget with h | ⟨h1, h2, ws', hws', hr'⟩
            · exact Or.inl h
            · have haj : ¬ a_id = j := fun h => hj (h ▸ h2)
              refine Or.inr ⟨h1, h2, ws', ?_, hr'⟩
              rw [List.filter_cons, if_neg (by simp [hparse]; exact fun h => haj h.symm)]
              exact hws'

/-- C10: in every completed run of `get_all_rubric_comments`, the result's
keys are pairwise distinct — each assignment id appears at most once — and
the rubric stored under an id comes from the first scanned worksheet whose
`A1` cell parses to that id (later worksheets with the same id are
skipped, the id having been removed from the candidate set). -/
theorem C10_first_sheet_wins (a_ids : List Int) (sheets : List WSheet)
    (data : Dict Int Rubric)
    (hok : get_all_rubric_comments a_ids sheets = Except.ok data) :
    (dictKeys data).Nodup ∧
    ∀ a_id rub, dictGet data a_id = some rub →
      a_id ∈ a_ids ∧
      ∃ ws, (sheets.filter
          (fun w => decide (toIntPy w.a1 = some a_id))).head? = some ws ∧
        get_assignment_rubric ws.rows = Except.ok rub := by
  unfold get_all_rubric_comments at hok
  cases hfold : sheets.foldlM sheetStep ([], a_ids) with
  | error e =>
      rw [hfold] at hok
      simp [Bind.bind, Except.bind] at hok
  | ok res =>
      rw [hfold, exceptBind_ok] at hok
      have hdata : res.1 = data := Except.ok.inj hok
      obtain ⟨hnd, hchar⟩ := getAll_fold_spec sheets [] a_ids res
        (by simp [dictKeys]) (by simp [dictKeys]) hfold
      rw [← hdata]
      refine ⟨hnd, ?_⟩
      intro a_id rub hget
      rcases hchar a_id rub hget with h | ⟨_, hin, ws, hws, hr⟩
      · simp [dictGet] at h
      · exact ⟨hin, ws, hws, hr⟩

/-- Witness for C10: two worksheets both carrying assignment id 7; the
result has a single entry for 7, taken from the first worksheet. -/
theorem C10_first_sheet_wins_witness :
    (dictKeys [((7 : Int), ([] : Rubric))]).Nodup ∧
    ∀ a_id rub, dictGet [((7 : Int), ([] : Rubric))] a_id = some rub →
      a_id ∈ [(7 : Int)] ∧
      ∃ ws, (([⟨"7", []⟩, ⟨"7", [rowPoints5]⟩] : List WSheet).filter
          (fun w => decide (toIntPy w.a1 = some a_id))).head? = some ws ∧
        get_assignment_rubric ws.rows = Except.ok rub :=
  C10_first_sheet_wins [7] [⟨"7", []⟩, ⟨"7", [rowPoints5]⟩] [(7, [])] rfl
